import Mathlib

/-!
Verification of the montycat_node client core: the wire value codec
(JSONbig.stringify / recursive JSONbig.parse with storeAsString), the query
builder (convertToBinaryQuery and its processValue / processBulkValues /
processBulkKeysValues / processSearchCriteria helpers, with the xxHash32
custom-key hasher), and the sendData transport of src/core/engine.ts,
embedded shallowly.

Modelling conventions:
- Characters and strings are handled as Unicode scalar sequences
  (List Char); JS strings are UTF-16, so lone surrogates are not
  representable and the embedded parser rejects a \u escape in the
  surrogate gap (no claim touches such strings).
- JS numbers are embedded as integers (JSVal.jnum); a parsed numeral that
  is not a plain integer (fraction or exponent part) is kept abstract as
  JSVal.jfrac carrying its source text, since no claim depends on float
  values.
- JS objects are embedded as ordered association lists.  JS enumeration
  order puts canonical array-index keys first and collapses duplicate
  keys; the claims under verification never depend on either, so the list
  order is document order.
- Unbounded recursion in the source (recursiveParseJSON) is embedded with
  an explicit fuel argument; a none result means the recursion did not
  complete within that call depth, and a none result for every fuel means
  the source function diverges.
- json-bigint with storeAsString: true returns a parsed numeral whose
  source text is longer than 15 characters as that string itself; this is
  the library behaviour the engine.ts codec is built on.
-/

namespace Montycat

/-! ### Character and digit helpers -/

def isDigitC (c : Char) : Bool := '0' ≤ c && c ≤ '9'

/-- Whitespace as Crockford's json parser sees it: any character at most ' '. -/
def isWsC (c : Char) : Bool := c.toNat ≤ 32

def skipWs : List Char → List Char
  | [] => []
  | c :: cs => if isWsC c then skipWs cs else c :: cs

/-- Decimal digits to a Nat, left fold with an accumulator. -/
def digitsToNat (acc : Nat) : List Char → Nat
  | [] => acc
  | c :: cs => digitsToNat (acc * 10 + (c.toNat - 48)) cs

/-- Decimal digit characters of n, most significant first (fueled so that it
reduces; the fuel n + 1 always suffices since n has at most n + 1 digits). -/
def natDigitsAux : Nat → Nat → List Char
  | 0, _ => []
  | f + 1, n =>
    if n < 10 then [Char.ofNat (48 + n)]
    else natDigitsAux f (n / 10) ++ [Char.ofNat (48 + n % 10)]

def natDigits (n : Nat) : List Char := natDigitsAux (n + 1) n

/-- The characters of String(i) for an integral JS number (decimal form;
the exponential form JS uses beyond 1e21 is outside every claim's range). -/
def intChars (i : Int) : List Char :=
  (if i < 0 then ['-'] else []) ++ natDigits i.natAbs

def intStr (i : Int) : String := ⟨intChars i⟩

/-- JS parseInt(s, 10): skip leading whitespace, optional sign, then the
longest digit prefix; NaN (none) when that prefix is empty.  The value
here is the exact integer of that prefix; the program receives it as a
double — exact below 2^53, rounded above, with String() turning
exponential from 1e21 — so every claim that relies on a key's parseInt
being lossless confines itself to the exact window through safeKey. -/
def jsParseInt (s : String) : Option Int :=
  let cs := s.data.dropWhile isWsC
  let (neg, cs1) : Bool × List Char :=
    match cs with
    | '-' :: r => (true, r)
    | '+' :: r => (false, r)
    | _ => (false, cs)
  let ds := cs1.takeWhile isDigitC
  if ds.isEmpty then none
  else some ((if neg then -1 else 1) * (digitsToNat 0 ds : Int))

/-- The key normalisation recursiveParseJSON applies through
Object.fromEntries: a key whose parseInt is a number comes back as that
number's string form, any other key is unchanged.  Computed here with the
exact prefix integer, this is faithful to the program exactly on safeKey
keys; above 2^53 the program's parseInt rounds its double result, which
this model does not reproduce — no claim quantifies over such keys. -/
def normKey (k : String) : String :=
  match jsParseInt k with
  | none => k
  | some i => intStr i

/-- A map key on which the program's parseInt-normalisation is provably
the identity: either parseInt finds no digit prefix (NaN leaves the key
untouched), or the key is the canonical decimal text of an integer whose
magnitude is below 2^53 — the window where parseInt's double result is
exact and String() of it is that same decimal text.  Keys whose digit
prefix reaches 2^53 are excluded: there the engine rounds. -/
def safeKey (k : String) : Bool :=
  match jsParseInt k with
  | none => true
  | some i => decide (i.natAbs < 2 ^ 53) && (intStr i == k)

def U64MAX : Nat := 18446744073709551615

/-- The guard regex of recursiveParseJSON: one or more ASCII digits and
nothing else. -/
def jsDigitsOnly (s : String) : Bool :=
  !s.data.isEmpty && s.data.all isDigitC

def listStartsWith : List Char → List Char → Bool
  | _, [] => true
  | [], _ :: _ => false
  | c :: cs, p :: ps => c == p && listStartsWith cs ps

def listContains (hay pat : List Char) : Bool :=
  match hay with
  | [] => listStartsWith [] pat
  | _ :: t => listStartsWith hay pat || listContains t pat

/-- JS String.prototype.includes. -/
def jsIncludes (s pat : String) : Bool := listContains s.data pat.data

def trimChars (cs : List Char) : List Char :=
  ((cs.dropWhile isWsC).reverse.dropWhile isWsC).reverse

/-- JS String.prototype.trim (whitespace approximated by isWsC; all claim
inputs are ASCII). -/
def jsTrim (s : String) : String := ⟨trimChars s.data⟩

/-! ### Number(s) NaN test, for the bulk-key routing of
processBulkKeysValues.  Number converts the whole trimmed string: empty is
0, otherwise a signed decimal literal, signed Infinity, or an unsigned
radix literal; everything else is NaN. -/

def isHexC (c : Char) : Bool :=
  isDigitC c || ('a' ≤ c && c ≤ 'f') || ('A' ≤ c && c ≤ 'F')

def expTailOk : List Char → Bool
  | [] => true
  | c :: r =>
    if c == 'e' || c == 'E' then
      let r2 : List Char :=
        match r with
        | '+' :: t => t
        | '-' :: t => t
        | _ => r
      !(r2.takeWhile isDigitC).isEmpty && (r2.dropWhile isDigitC).isEmpty
    else false

def decimalLit (cs : List Char) : Bool :=
  let d1 := cs.takeWhile isDigitC
  let r1 := cs.dropWhile isDigitC
  match r1 with
  | '.' :: r2 =>
    let d2 := r2.takeWhile isDigitC
    let r3 := r2.dropWhile isDigitC
    (!d1.isEmpty || !d2.isEmpty) && expTailOk r3
  | _ => !d1.isEmpty && expTailOk r1

def radixLit : List Char → Bool
  | '0' :: x :: r =>
    if x == 'x' || x == 'X' then !r.isEmpty && r.all isHexC
    else if x == 'b' || x == 'B' then !r.isEmpty && r.all (fun c => c == '0' || c == '1')
    else if x == 'o' || x == 'O' then !r.isEmpty && r.all (fun c => '0' ≤ c && c ≤ '7')
    else false
  | _ => false

/-- Does Number(s) produce a non-NaN value? -/
def jsNumericNonNaN (s : String) : Bool :=
  let t := trimChars s.data
  if t.isEmpty then true
  else
    let u : List Char :=
      match t with
      | '+' :: r => r
      | '-' :: r => r
      | _ => t
    decimalLit u || u == "Infinity".data || radixLit t

/-! ### The custom key hasher: xxhash.h32 over the UTF-8 bytes with seed 0,
digest rendered as unsigned decimal (convertCustomKey). -/

def M32 : Nat := 4294967296
def XP1 : Nat := 2654435761
def XP2 : Nat := 2246822519
def XP3 : Nat := 3266489917
def XP4 : Nat := 668265263
def XP5 : Nat := 374761393

def add32 (a b : Nat) : Nat := (a + b) % M32
def mul32 (a b : Nat) : Nat := (a * b) % M32
def rotl32 (x r : Nat) : Nat := ((x <<< r) % M32) ||| (x >>> (32 - r))

def utf8Encode (c : Char) : List Nat :=
  let n := c.toNat
  if n < 128 then [n]
  else if n < 2048 then [192 + n / 64, 128 + n % 64]
  else if n < 65536 then [224 + n / 4096, 128 + n / 64 % 64, 128 + n % 64]
  else [240 + n / 262144, 128 + n / 4096 % 64, 128 + n / 64 % 64, 128 + n % 64]

def utf8Bytes (s : String) : List Nat := s.data.flatMap utf8Encode

def word32LE (b0 b1 b2 b3 : Nat) : Nat :=
  b0 + 256 * b1 + 65536 * b2 + 16777216 * b3

def xxhRound (acc lane : Nat) : Nat :=
  mul32 (rotl32 (add32 acc (mul32 lane XP2)) 13) XP1

def xxhStripes : List Nat → Nat × Nat × Nat × Nat → (Nat × Nat × Nat × Nat) × List Nat
  | b0 :: b1 :: b2 :: b3 :: b4 :: b5 :: b6 :: b7 ::
    b8 :: b9 :: b10 :: b11 :: b12 :: b13 :: b14 :: b15 :: rest, (v1, v2, v3, v4) =>
    xxhStripes rest
      (xxhRound v1 (word32LE b0 b1 b2 b3), xxhRound v2 (word32LE b4 b5 b6 b7),
       xxhRound v3 (word32LE b8 b9 b10 b11), xxhRound v4 (word32LE b12 b13 b14 b15))
  | bs, vs => (vs, bs)

def xxhTail1 : Nat → List Nat → Nat
  | h, [] => h
  | h, b :: rest => xxhTail1 (mul32 (rotl32 (add32 h (mul32 b XP5)) 11) XP1) rest

def xxhTail4 : Nat → List Nat → Nat
  | h, b0 :: b1 :: b2 :: b3 :: rest =>
    xxhTail4 (mul32 (rotl32 (add32 h (mul32 (word32LE b0 b1 b2 b3) XP3)) 17) XP4) rest
  | h, rest => xxhTail1 h rest

def xxhFinal (h0 : Nat) : Nat :=
  let h1 := h0 ^^^ (h0 >>> 15)
  let h2 := mul32 h1 XP2
  let h3 := h2 ^^^ (h2 >>> 13)
  let h4 := mul32 h3 XP3
  h4 ^^^ (h4 >>> 16)

def xxh32 (bytes : List Nat) (seed : Nat) : Nat :=
  let len := bytes.length
  let (h0, rest) :=
    if len ≥ 16 then
      let ((v1, v2, v3, v4), rest) :=
        xxhStripes bytes
          (add32 (add32 seed XP1) XP2, add32 seed XP2, seed, (seed + M32 - XP1 % M32) % M32)
      (add32 (add32 (rotl32 v1 1) (rotl32 v2 7)) (add32 (rotl32 v3 12) (rotl32 v4 18)), rest)
    else (add32 seed XP5, bytes)
  xxhFinal (xxhTail4 (add32 h0 len) rest)

/-- convertCustomKey from storeGenericFunctions.ts: the xxHash32 digest of
the key's UTF-8 bytes, rendered as unsigned decimal text. -/
def convertCustomKey (key : String) : String :=
  ⟨natDigits (xxh32 (utf8Bytes key) 0)⟩

def convertCustomKeys (keys : List String) : List String :=
  keys.map convertCustomKey

def convertCustomKeysValues {α : Type} (keysValues : List (String × α)) : List (String × α) :=
  keysValues.map (fun kv => (convertCustomKey kv.1, kv.2))

/-! ### JS values -/

/-- A JS value as the codec sees it: JSON data plus the jfrac abstraction
for non-integer numerals (see the header). -/
inductive JSVal where
  | jnull
  | jbool (b : Bool)
  | jnum (n : Int)
  | jfrac (raw : List Char)
  | jstr (s : String)
  | jarr (items : List JSVal)
  | jobj (fields : List (String × JSVal))

/-! ### JSON.stringify -/

def hexLower (n : Nat) : Char :=
  if n < 10 then Char.ofNat (48 + n) else Char.ofNat (87 + n)

/-- The escape JSON.stringify applies to one character of a string. -/
def escChar (ch : Char) : List Char :=
  match ch with
  | '\x22' => ['\\', '\x22']
  | '\\' => ['\\', '\\']
  | '\u0008' => ['\\', 'b']
  | '\u000c' => ['\\', 'f']
  | '\n' => ['\\', 'n']
  | '\u000d' => ['\\', 'r']
  | '\t' => ['\\', 't']
  | ch =>
    if ch.toNat < 32 then
      ['\\', 'u', '0', '0', hexLower (ch.toNat / 16), hexLower (ch.toNat % 16)]
    else [ch]

def escBody : List Char → List Char
  | [] => []
  | c :: cs => escChar c ++ escBody cs

def printStr (s : String) : List Char := '"' :: (escBody s.data ++ ['"'])

mutual
/-- JSON.stringify (also JSONbig.stringify; the two agree on this value
universe) as a character list. -/
def printVal : JSVal → List Char
  | .jnull => ['n', 'u', 'l', 'l']
  | .jbool true => ['t', 'r', 'u', 'e']
  | .jbool false => ['f', 'a', 'l', 's', 'e']
  | .jnum n => intChars n
  | .jfrac raw => raw
  | .jstr s => printStr s
  | .jarr items => '[' :: (printElems items ++ [']'])
  | .jobj fields => '\x7b' :: (printFields fields ++ ['\x7d'])
def printElems : List JSVal → List Char
  | [] => []
  | v :: t => printVal v ++ printElemsTail t
def printElemsTail : List JSVal → List Char
  | [] => []
  | v :: t => ',' :: (printVal v ++ printElemsTail t)
def printFields : List (String × JSVal) → List Char
  | [] => []
  | (k, v) :: t => printStr k ++ ':' :: (printVal v ++ printFieldsTail t)
def printFieldsTail : List (String × JSVal) → List Char
  | [] => []
  | (k, v) :: t => ',' :: (printStr k ++ ':' :: (printVal v ++ printFieldsTail t))
end

def stringifyVal (v : JSVal) : String := ⟨printVal v⟩

/-! ### JSONbig.parse (json-bigint, storeAsString: true; Crockford
recursive-descent grammar) -/

def escapee (c : Char) : Option Char :=
  match c with
  | '"' => some '"'
  | '\\' => some '\\'
  | '/' => some '/'
  | 'b' => some '\x08'
  | 'f' => some '\x0c'
  | 'n' => some '\n'
  | 'r' => some '\r'
  | 't' => some '\t'
  | _ => none

def hexValC (c : Char) : Option Nat :=
  if '0' ≤ c && c ≤ '9' then some (c.toNat - 48)
  else if 'a' ≤ c && c ≤ 'f' then some (c.toNat - 87)
  else if 'A' ≤ c && c ≤ 'F' then some (c.toNat - 55)
  else none

/-- Crockford's \u hex loop: up to four characters, each consumed before
being tested, a non-hex character ending the loop. -/
def readHex4 : Nat → Nat → List Char → Nat × List Char
  | 0, acc, cs => (acc, cs)
  | _ + 1, acc, [] => (acc, [])
  | k + 1, acc, c :: cs =>
    match hexValC c with
    | some v => readHex4 k (acc * 16 + v) cs
    | none => (acc, cs)

def validScalar (u : Nat) : Bool :=
  u < 55296 || (57343 < u && u < 1114112)

/-- The string body after the opening quote.  Fueled (each step consumes at
least one character, so length + 1 fuel suffices). -/
def parseStrBody : Nat → List Char → List Char → Option (String × List Char)
  | 0, _, _ => none
  | _ + 1, _, [] => none
  | f + 1, acc, c :: r =>
    if c == '"' then some (⟨acc⟩, r)
    else if c == '\\' then
      match r with
      | [] => none
      | 'u' :: r2 =>
        let (u, r3) := readHex4 4 0 r2
        if validScalar u then parseStrBody f (acc ++ [Char.ofNat u]) r3 else none
      | e :: r2 =>
        match escapee e with
        | some ec => parseStrBody f (acc ++ [ec]) r2
        | none => none
    else parseStrBody f (acc ++ [c]) r

/-- A string literal including its opening quote. -/
def parseStrLit : List Char → Option (String × List Char)
  | '"' :: r => parseStrBody (r.length + 1) [] r
  | _ => none

/-- One numeral per Crockford's number(), then json-bigint's storeAsString
classification: an invalid numeral is an error; source text longer than 15
characters comes back as that string; a plain integer numeral becomes a
number; anything else is a float, kept abstract as jfrac. -/
def parseNumber (cs : List Char) : Option (JSVal × List Char) :=
  let (sgn, cs1) : List Char × List Char :=
    match cs with
    | '-' :: r => (['-'], r)
    | _ => ([], cs)
  let d1 := cs1.takeWhile isDigitC
  let r1 := cs1.dropWhile isDigitC
  let (frac, r2) : List Char × List Char :=
    match r1 with
    | '.' :: rr => ('.' :: rr.takeWhile isDigitC, rr.dropWhile isDigitC)
    | _ => ([], r1)
  let (expo, r3) : List Char × List Char :=
    match r2 with
    | e :: rr =>
      if e == 'e' || e == 'E' then
        let (s2, rr2) : List Char × List Char :=
          match rr with
          | '+' :: t => (['+'], t)
          | '-' :: t => (['-'], t)
          | _ => ([], rr)
        (e :: (s2 ++ rr2.takeWhile isDigitC), rr2.dropWhile isDigitC)
      else ([], r2)
    | [] => ([], r2)
  let raw := sgn ++ d1 ++ frac ++ expo
  let fracDigits := frac.drop 1
  let expoOk := expo.isEmpty || isDigitC (expo.getLastD 'e')
  if (d1.isEmpty && fracDigits.isEmpty) || !expoOk then none
  else if raw.length > 15 then some (.jstr ⟨raw⟩, r3)
  else if frac.drop 1 == [] && expo.isEmpty then
    some (.jnum ((if sgn.isEmpty then 1 else -1) * (digitsToNat 0 d1 : Int)), r3)
  else some (.jfrac raw, r3)

/-- Parser jobs: a value, the elements after an opening bracket once the
empty case is ruled out, and likewise object members. -/
inductive PTok where
  | pval
  | pelems
  | pfields

inductive POut where
  | outV (v : JSVal)
  | outL (l : List JSVal)
  | outF (l : List (String × JSVal))

/-- The recursive-descent parser, structural on fuel so that it evaluates
by kernel reduction. -/
def parseF : Nat → PTok → List Char → Option (POut × List Char)
  | 0, _, _ => none
  | f + 1, .pval, cs =>
    match skipWs cs with
    | 'n' :: 'u' :: 'l' :: 'l' :: r => some (.outV .jnull, r)
    | 't' :: 'r' :: 'u' :: 'e' :: r => some (.outV (.jbool true), r)
    | 'f' :: 'a' :: 'l' :: 's' :: 'e' :: r => some (.outV (.jbool false), r)
    | '"' :: r => (parseStrBody (r.length + 1) [] r).map (fun p => (.outV (.jstr p.1), p.2))
    | '[' :: r =>
      (match skipWs r with
       | ']' :: r2 => some (.outV (.jarr []), r2)
       | r2 =>
         match parseF f .pelems r2 with
         | some (.outL l, r3) => some (.outV (.jarr l), r3)
         | _ => none)
    | '\x7b' :: r =>
      (match skipWs r with
       | '\x7d' :: r2 => some (.outV (.jobj []), r2)
       | r2 =>
         match parseF f .pfields r2 with
         | some (.outF l, r3) => some (.outV (.jobj l), r3)
         | _ => none)
    | c :: r =>
      if c == '-' || isDigitC c then parseNumber (c :: r) |>.map (fun p => (.outV p.1, p.2))
      else none
    | [] => none
  | f + 1, .pelems, cs =>
    match parseF f .pval cs with
    | some (.outV v, r) =>
      (match skipWs r with
       | ']' :: r2 => some (.outL [v], r2)
       | ',' :: r2 =>
         (match parseF f .pelems r2 with
          | some (.outL l, r3) => some (.outL (v :: l), r3)
          | _ => none)
       | _ => none)
    | _ => none
  | f + 1, .pfields, cs =>
    match parseStrLit (skipWs cs) with
    | some (k, r1) =>
      (match skipWs r1 with
       | ':' :: r2 =>
         (match parseF f .pval r2 with
          | some (.outV v, r3) =>
            (match skipWs r3 with
             | '\x7d' :: r4 => some (.outF [(k, v)], r4)
             | ',' :: r4 =>
               (match parseF f .pfields r4 with
                | some (.outF l, r5) => some (.outF ((k, v) :: l), r5)
                | _ => none)
             | _ => none)
          | _ => none)
       | _ => none)
    | none => none

/-- JSONbig.parse of a whole text: one value, then only whitespace may
remain.  The fuel 2|s| + 2 covers every input this grammar accepts (each
two nested parser calls consume at least one character). -/
def jsonParse (s : String) : Option JSVal :=
  match parseF (2 * s.data.length + 2) .pval s.data with
  | some (.outV v, r) => if (skipWs r).isEmpty then some v else none
  | _ => none

/-! ### recursiveParseJSON (engine.ts).  The source recurses without bound:
a string that passes the digit guard is returned as is; otherwise the
string is fed to JSONbig.parse and the result recursed into (a parse error
returning the string unchanged); arrays map the recursion over their
items; objects rebuild their entries with parseInt-normalised keys;
everything else is returned as is.  Fuel counts nested calls. -/

inductive RArg where
  | argV (v : JSVal)
  | argL (l : List JSVal)
  | argF (l : List (String × JSVal))

inductive ROut where
  | outV (v : JSVal)
  | outL (l : List JSVal)
  | outF (l : List (String × JSVal))

/-- The digit guard of recursiveParseJSON: the string matches the
all-digits regex and its value fits 64 unsigned bits. -/
def digitGuard (s : String) : Bool :=
  jsDigitsOnly s && decide (digitsToNat 0 s.data ≤ U64MAX)

def rpjGo : Nat → RArg → Option ROut
  | 0, _ => none
  | f + 1, .argV (.jstr s) =>
    if digitGuard s then some (.outV (.jstr s))
    else
      match jsonParse s with
      | some v => rpjGo f (.argV v)
      | none => some (.outV (.jstr s))
  | f + 1, .argV (.jarr l) =>
    (match rpjGo f (.argL l) with
     | some (.outL l2) => some (.outV (.jarr l2))
     | _ => none)
  | f + 1, .argV (.jobj fl) =>
    (match rpjGo f (.argF fl) with
     | some (.outF fl2) => some (.outV (.jobj fl2))
     | _ => none)
  | _ + 1, .argV v => some (.outV v)
  | _ + 1, .argL [] => some (.outL [])
  | f + 1, .argL (v :: t) =>
    (match rpjGo f (.argV v), rpjGo f (.argL t) with
     | some (.outV v2), some (.outL t2) => some (.outL (v2 :: t2))
     | _, _ => none)
  | _ + 1, .argF [] => some (.outF [])
  | f + 1, .argF ((k, v) :: t) =>
    (match rpjGo f (.argV v), rpjGo f (.argF t) with
     | some (.outV v2), some (.outF t2) => some (.outF ((normKey k, v2) :: t2))
     | _, _ => none)

/-- recursiveParseJSON with an explicit call-depth fuel; none means the
recursion did not complete within that depth. -/
def recursiveParseJSON (f : Nat) (v : JSVal) : Option JSVal :=
  match rpjGo f (.argV v) with
  | some (.outV r) => some r
  | _ => none

/-- The decoder as the transport uses it: recursiveParseJSON applied to a
received text. -/
def decodeText (f : Nat) (s : String) : Option JSVal :=
  recursiveParseJSON f (.jstr s)

/-! ### Schema values (core/schema.ts): Timestamp and Pointer instances as
they appear inside values handed to the query builder. -/

/-- A direct field of a value object: plain JS data, a Timestamp instance
(carrying its timestamp string), or a Pointer instance (keyspace plus the
key resolved at construction, or none when unresolvable). -/
inductive FieldVal where
  | plain (j : JSVal)
  | tsv (t : String)
  | ptr (keyspace : String) (key : Option String)

/-- Pointer.setupPointer: the wire pair when both parts are truthy,
otherwise the thrown construction error. -/
def setupPointer (keyspace : String) (key : Option String) :
    Except String (String × String) :=
  match key with
  | some k =>
    if keyspace ≠ "" ∧ k ≠ "" then .ok (keyspace, k)
    else .error "Pointer is not valid. Please provide a keyspace and a key."
  | none => .error "Pointer is not valid. Please provide a keyspace and a key."

/-- JSON.stringify's view of a field value: instances serialise as their
enumerable own properties in insertion order, an undefined key omitted. -/
def fieldValJS : FieldVal → JSVal
  | .plain j => j
  | .tsv t => .jobj [("timestamp", .jstr t)]
  | .ptr ks key =>
    .jobj (("keyspace", .jstr ks) ::
      (match key with
       | some k => [("key", .jstr k)]
       | none => []))

/-- A value handed to the builder: a plain object of direct fields, an
array whose direct elements may themselves be instances (arrays are
instanceof Object, so the source's walks visit their indices), a top-level
Timestamp or Pointer instance, or a primitive.  Deeper nesting stays
inside plain JSVal data, matching the one-level walks of the source. -/
inductive Value where
  | vobj (fields : List (String × FieldVal))
  | varr (items : List FieldVal)
  | vts (t : String)
  | vptr (keyspace : String) (key : Option String)
  | vprim (j : JSVal)

def valueJS : Value → JSVal
  | .vobj fields => .jobj (fields.map (fun kv => (kv.1, fieldValJS kv.2)))
  | .varr items => .jarr (items.map fieldValJS)
  | .vts t => fieldValJS (.tsv t)
  | .vptr ks k => fieldValJS (.ptr ks k)
  | .vprim j => j

def stringifyValue (v : Value) : String := stringifyVal (valueJS v)

/-- JS `x instanceof Object`: true for objects, arrays and class
instances, false for primitives (and null). -/
def isObjectVal : Value → Bool
  | .vprim _ => false
  | _ => true

def jsTruthyJS : JSVal → Bool
  | .jnull => false
  | .jbool b => b
  | .jnum n => n != 0
  | .jfrac _ => true
  | .jstr s => s ≠ ""
  | .jarr _ => true
  | .jobj _ => true

def fieldTruthy : FieldVal → Bool
  | .plain j => jsTruthyJS j
  | .tsv _ => true
  | .ptr _ _ => true

/-! ### The query builder (functions/storeGenericFunctions.ts) -/

/-- The in-place resolution processValue applies to one direct field of an
object or element of an array: a Timestamp becomes its timestamp string, a
Pointer its wire pair (or the construction error), anything else is
untouched. -/
def resolveField : FieldVal → Except String FieldVal
  | .tsv t => .ok (.plain (.jstr t))
  | .ptr ks k => (setupPointer ks k).map (fun p => .plain (.jarr [.jstr p.1, .jstr p.2]))
  | fv => .ok fv

/-- processValue: on an object, the schema property is read and deleted and
every remaining direct field resolved in place; on an array — also
instanceof Object, its for..in walk visiting the indices — every direct
Timestamp or Pointer element is resolved in place (an array owns no
schema property).  The function returns the same (now mutated) value
together with the found schema.  Primitives and bare instances come back
unchanged with no schema.  The first component is the caller's value as
it stands after the call. -/
def processValue (value : Value) : Except String (Value × Option FieldVal) :=
  match value with
  | .vobj fields =>
    let foundSchema := fields.lookup "schema"
    let remaining :=
      match foundSchema with
      | some _ => fields.filter (fun (kv : String × FieldVal) => kv.1 ≠ "schema")
      | none => fields
    (remaining.mapM (fun (kv : String × FieldVal) => (resolveField kv.2).map (fun fv => (kv.1, fv)))).map
      (fun resolved => (.vobj resolved, foundSchema))
  | .varr items =>
    (items.mapM resolveField).map (fun resolved => (.varr resolved, none))
  | v => .ok (v, none)

/-- SameValueZero as a JS Set applies it to schema tags: primitives by
value; objects compare by reference, and distinct occurrences in the
embedding are distinct references, so composite tags never collide. -/
def sameValueZero : FieldVal → FieldVal → Bool
  | .plain .jnull, .plain .jnull => true
  | .plain (.jbool a), .plain (.jbool b) => a == b
  | .plain (.jnum a), .plain (.jnum b) => a == b
  | .plain (.jstr a), .plain (.jstr b) => a == b
  | _, _ => false

/-- processBulkValues: each element processed in order; a truthy found
schema is checked against the set size before being added, the error being
thrown only when the set already holds more than one tag.  Returns the
processed elements and the set's first tag (insertion order), if any. -/
def processBulkValues (bulkValues : List Value) :
    Except String (List Value × Option FieldVal) :=
  (bulkValues.foldlM
    (fun (acc : List Value × List FieldVal) val => do
      let (pv, foundSchema) ← processValue val
      let schemas ←
        match foundSchema with
        | some s =>
          if fieldTruthy s then
            if acc.2.length > 1 then
              Except.error "Bulk values must have the same schema"
            else
              pure (if acc.2.any (sameValueZero s) then acc.2 else acc.2 ++ [s])
          else pure acc.2
        | none => pure acc.2
      pure (acc.1 ++ [pv], schemas))
    ([], [])).map
    (fun (r : List Value × List FieldVal) => (r.1, r.2.head?))

/-- The inner walk of processBulkKeysValues: Object.keys of the entry —
an object's fields or an array's indices — with only direct Timestamp
values resolved (Pointer fields are left as instances). -/
def bulkInnerResolve : Value → Value
  | .vobj fields =>
    .vobj (fields.map (fun kv =>
      match kv.2 with
      | .tsv t => (kv.1, .plain (.jstr t))
      | fv => (kv.1, fv)))
  | .varr items =>
    .varr (items.map (fun fv =>
      match fv with
      | .tsv t => .plain (.jstr t)
      | fv => fv))
  | v => v

/-- The key routing of processBulkKeysValues: a key Number() accepts stays,
any other key goes through the hasher. -/
def procBulkKey (key : String) : String :=
  if jsNumericNonNaN key then key else convertCustomKey key

/-- The result of processBulkKeysValues: the caller's map as it stands
after the in-place edits, and the object of independently serialised
entries that goes into the envelope. -/
structure BulkProcessed where
  post : List (String × Value)
  out : List (String × String)

/-- An Object entry of the bulk map as it stands after the loop body's
in-place edits: inner Timestamps resolved, then a top-level Pointer entry
replaced by its wire pair (whose construction can fail). -/
def bulkEntryPost (entry : Value) : Except String Value :=
  match bulkInnerResolve entry with
  | .vptr ks k =>
    (setupPointer ks k).map (fun p => Value.varr [.plain (.jstr p.1), .plain (.jstr p.2)])
  | v => .ok v

/-- processBulkKeysValues: entries that are Objects get their direct
Timestamp fields resolved in place, a top-level Pointer entry is replaced
in the caller's map by its wire pair, and the (possibly rewritten) entry
is serialised under the routed key; entries that are not Objects are
skipped entirely, left in the caller's map and absent from the output. -/
def processBulkKeysValues (m : List (String × Value)) : Except String BulkProcessed :=
  m.foldlM
    (fun (acc : BulkProcessed) (kv : String × Value) =>
      if isObjectVal kv.2 then
        (bulkEntryPost kv.2).bind (fun post =>
          pure ⟨acc.post ++ [(kv.1, post)], acc.out ++ [(procBulkKey kv.1, stringifyValue post)]⟩)
      else
        pure ⟨acc.post ++ [(kv.1, kv.2)], acc.out⟩)
    ⟨[], []⟩

/-- A Pointer-valued criterion joins the reserved pointers sub-map, created
in place at the first Pointer's position; other criteria pass through. -/
def upsertPointers (acc : List (String × JSVal)) (key : String) (pj : JSVal) :
    List (String × JSVal) :=
  if (acc.lookup "pointers").isSome then
    acc.map (fun kv =>
      if kv.1 = "pointers" then
        (kv.1, match kv.2 with
               | .jobj l => .jobj (l ++ [(key, pj)])
               | v => v)
      else kv)
  else acc ++ [("pointers", .jobj [(key, pj)])]

/-- processSearchCriteria, producing the criteria object that will be
serialised into the envelope.  It builds a fresh object and never writes
to its argument. -/
def processSearchCriteria (sc : List (String × FieldVal)) : Except String JSVal :=
  (sc.foldlM
    (fun (acc : List (String × JSVal)) (kv : String × FieldVal) => do
      match kv.2 with
      | .ptr ks k => do
        let p ← setupPointer ks k
        pure (upsertPointers acc kv.1 (.jarr [.jstr p.1, .jstr p.2]))
      | fv => pure (acc ++ [(kv.1, fieldValJS fv)]))
    []).map .jobj

/-- The per-call context: the class statics convertToBinaryQuery reads.
GenericKV defines no namespace member, so that property is undefined and
JSON.stringify omits it. -/
structure Ctx where
  username : String
  password : String
  namespc : Option String
  store : String
  keyspace : String
  persistent : Bool
  distributed : Bool
  command : String

/-- The option bag of convertToBinaryQuery with the source's defaults. -/
structure BuildOptions where
  key : Option String
  value : Value
  expireSec : Int
  bulkValues : List Value
  bulkKeys : List String
  bulkKeysValues : List (String × Value)
  searchCriteria : List (String × FieldVal)
  limitOutput : Int × Int
  withPointers : Bool
  schema : Option FieldVal
  keyIncluded : Bool
  pointersMetadata : Bool
  volumes : List String
  latestVolume : Bool

def defaultOptions : BuildOptions :=
  ⟨none, .vobj [], 0, [], [], [], [], (0, 0), false, none, false, false, [], false⟩

/-- The flat envelope convertToBinaryQuery assembles (the object literal's
fields in source order). -/
structure Envelope where
  username : String
  password : String
  namespc : Option String
  store : String
  keyspace : String
  persistent : Bool
  distributed : Bool
  limit_output : Int × Int
  key : Option String
  value : String
  command : String
  expire : Int
  bulk_values : List String
  bulk_keys : List String
  bulk_keys_values : List (String × String)
  search_criteria : String
  with_pointers : Bool
  schema : Option FieldVal
  key_included : Bool
  pointers_metadata : Bool
  volumes : List String
  latest_volume : Bool

/-- The JS ternary chain selecting the envelope's schema field. -/
def truthyOr (a b : Option FieldVal) : Option FieldVal :=
  match a with
  | some s => if fieldTruthy s then some s else b
  | none => b

def envelopeJS (e : Envelope) : JSVal :=
  .jobj
    ([("username", .jstr e.username), ("password", .jstr e.password)]
     ++ (match e.namespc with
         | some ns => [("namespace", .jstr ns)]
         | none => [])
     ++ [("store", .jstr e.store), ("keyspace", .jstr e.keyspace),
         ("persistent", .jbool e.persistent), ("distributed", .jbool e.distributed),
         ("limit_output", .jobj [("start", .jnum e.limit_output.1),
                                 ("stop", .jnum e.limit_output.2)]),
         ("key", match e.key with
                 | some k => .jstr k
                 | none => .jnull),
         ("value", .jstr e.value),
         ("command", .jstr e.command),
         ("expire", .jnum e.expire),
         ("bulk_values", .jarr (e.bulk_values.map .jstr)),
         ("bulk_keys", .jarr (e.bulk_keys.map .jstr)),
         ("bulk_keys_values", .jobj (e.bulk_keys_values.map (fun kv => (kv.1, .jstr kv.2)))),
         ("search_criteria", .jstr e.search_criteria),
         ("with_pointers", .jbool e.with_pointers),
         ("schema", match e.schema with
                    | some fv => fieldValJS fv
                    | none => .jnull),
         ("key_included", .jbool e.key_included),
         ("pointers_metadata", .jbool e.pointers_metadata),
         ("volumes", .jarr (e.volumes.map .jstr)),
         ("latest_volume", .jbool e.latest_volume)])

/-- convertToBinaryQuery up to the final JSON.stringify: the processing
steps in source order, assembling the envelope record. -/
def buildEnvelope (cls : Ctx) (o : BuildOptions) : Except String Envelope := do
  let pv ← processValue o.value
  let pbv ← processBulkValues o.bulkValues
  let bkv ← processBulkKeysValues o.bulkKeysValues
  let psc ← processSearchCriteria o.searchCriteria
  return {
    username := cls.username
    password := cls.password
    namespc := cls.namespc
    store := cls.store
    keyspace := cls.keyspace
    persistent := cls.persistent
    distributed := cls.distributed
    limit_output := o.limitOutput
    key := o.key
    value := stringifyValue pv.1
    command := cls.command
    expire := o.expireSec
    bulk_values := pbv.1.map stringifyValue
    bulk_keys := o.bulkKeys
    bulk_keys_values := bkv.out
    search_criteria := stringifyVal psc
    with_pointers := o.withPointers
    schema := truthyOr pv.2 (truthyOr pbv.2 o.schema)
    key_included := o.keyIncluded
    pointers_metadata := o.pointersMetadata
    volumes := o.volumes
    latest_volume := o.latestVolume }

/-- convertToBinaryQuery: the envelope serialised to wire text (the outer
JSON.stringify). -/
def convertToBinaryQuery (cls : Ctx) (o : BuildOptions) : Except String String :=
  (buildEnvelope cls o).map (fun e => stringifyVal (envelopeJS e))

/-! ### GenericKV front methods (classes/generic.ts) that gate the
conflicting pointer flags before building and sending -/

def bothPointersMsg : String :=
  "You select both pointers value and pointers metadata. Choose one"

structure GetValueArgs where
  key : String
  customKey : Option String
  withPointers : Bool
  keyIncluded : Bool
  pointersMetadata : Bool

/-- The key getValue settles on: a truthy customKey is hashed, otherwise
the key argument stands. -/
def effectiveKey (key : String) (customKey : Option String) : String :=
  match customKey with
  | some ck => if ck ≠ "" then convertCustomKey ck else key
  | none => key

/-- GenericKV.getValue up to the envelope that would be handed to
runQuery; the conflicting-flags check comes first, before any processing
or network step. -/
def getValueE (cls : Ctx) (a : GetValueArgs) : Except String Envelope :=
  if a.pointersMetadata && a.withPointers then .error bothPointersMsg
  else if effectiveKey a.key a.customKey = "" then .error "No key provided"
  else
    buildEnvelope { cls with command := "get_value" }
      { defaultOptions with
          key := some (effectiveKey a.key a.customKey)
          withPointers := a.withPointers
          keyIncluded := a.keyIncluded
          pointersMetadata := a.pointersMetadata }

structure GetBulkArgs where
  bulkKeys : List String
  bulkCustomKeys : List String
  limitOutput : Int × Int
  withPointers : Bool
  keyIncluded : Bool
  pointersMetadata : Bool
  volumes : List String
  latestVolume : Bool

/-- getBulk's key list after the hashed custom keys are appended. -/
def mergedBulkKeys (a : GetBulkArgs) : List String :=
  if a.bulkCustomKeys.length ≠ 0 then a.bulkKeys ++ convertCustomKeys a.bulkCustomKeys
  else a.bulkKeys

/-- getBulk's count of the mutually exclusive retrieval selectors. -/
def selectedCount (a : GetBulkArgs) : Nat :=
  (if (mergedBulkKeys a).length > 0 then 1 else 0)
    + (if a.volumes.length > 0 then 1 else 0) + (if a.latestVolume then 1 else 0)

/-- GenericKV.getBulk up to the envelope handed to runQuery. -/
def getBulkE (cls : Ctx) (a : GetBulkArgs) : Except String Envelope :=
  if a.pointersMetadata && a.withPointers then .error bothPointersMsg
  else if selectedCount a ≠ 1 then
    .error "Multiple conflicting options provided. Please provide exactly one of the following: keys, volumes, or latest volume."
  else
    buildEnvelope { cls with command := "get_bulk" }
      { defaultOptions with
          bulkKeys := mergedBulkKeys a
          limitOutput := a.limitOutput
          withPointers := a.withPointers
          keyIncluded := a.keyIncluded
          pointersMetadata := a.pointersMetadata
          volumes := a.volumes
          latestVolume := a.latestVolume }

structure LookupValuesArgs where
  searchCriteria : List (String × FieldVal)
  limitOutput : Int × Int
  withPointers : Bool
  schema : Option FieldVal
  keyIncluded : Bool
  pointersMetadata : Bool

/-- GenericKV.lookupValuesWhere up to the envelope handed to runQuery. -/
def lookupValuesWhereE (cls : Ctx) (a : LookupValuesArgs) : Except String Envelope :=
  if a.pointersMetadata && a.withPointers then .error bothPointersMsg
  else
    buildEnvelope { cls with command := "lookup_values" }
      { defaultOptions with
          searchCriteria := a.searchCriteria
          limitOutput := a.limitOutput
          withPointers := a.withPointers
          schema := a.schema
          keyIncluded := a.keyIncluded
          pointersMetadata := a.pointersMetadata }

/-- GenericKV.updateBulk up to the envelope handed to runQuery (the custom
map merged in after hashing, as the object spread does). -/
def mergedBulkMap (bulkKeysValues bulkCustomKeysValues : List (String × Value)) :
    List (String × Value) :=
  if bulkCustomKeysValues.length ≠ 0 then
    bulkKeysValues ++ convertCustomKeysValues bulkCustomKeysValues
  else bulkKeysValues

def updateBulkE (cls : Ctx) (bulkKeysValues bulkCustomKeysValues : List (String × Value)) :
    Except String Envelope :=
  if (mergedBulkMap bulkKeysValues bulkCustomKeysValues).length = 0 then
    .error "No keys provided"
  else
    buildEnvelope { cls with command := "update_bulk" }
      { defaultOptions with bulkKeysValues := mergedBulkMap bulkKeysValues bulkCustomKeysValues }

/-! ### The transport (sendData of core/engine.ts), as a deterministic
event machine over one connection.  The promise resolves at most once, the
delivered list records the callback invocations in order, and written
records what went out on the socket. -/

inductive Resolution where
  | value (v : JSVal)
  | failure (msg : String)
  | handle

structure ConnState where
  buffer : List Char
  stopped : Bool
  resolved : Option Resolution
  delivered : List JSVal
  destroyed : Bool
  written : List String

def initConn : ConnState := ⟨[], false, none, [], false, []⟩

/-- A JS promise resolves once; later resolve calls are no-ops. -/
def resolveOnce (r : Resolution) (s : ConnState) : ConnState :=
  match s.resolved with
  | some _ => s
  | none => { s with resolved := some r }

inductive Ev where
  | connect
  | data (chunk : String)
  | eos
  | sockError (msg : String)
  | timeout
  | stop

/-- JS String.prototype.split with the one-character separator "\n". -/
def splitNl : List Char → List (List Char)
  | [] => [[]]
  | c :: cs =>
    if c == '\n' then [] :: splitNl cs
    else
      match splitNl cs with
      | [] => [[c]]
      | p :: ps => (c :: p) :: ps

/-- The loop body of onData over the complete parts: blank parts are
skipped; otherwise the part is decoded, a subscription delivering it when
not stopped and a callback exists, a one-shot call destroying the socket
and resolving.  A none result means the decoder's recursion did not
complete; the catch branch of onData is unreachable because
recursiveParseJSON returns on every string it terminates on (claim c10). -/
def procFrames (subMode hasCallback : Bool) (fuel : Nat) :
    List (List Char) → ConnState → Option ConnState
  | [], s => some s
  | p :: ps, s =>
    if (trimChars p).isEmpty then procFrames subMode hasCallback fuel ps s
    else
      match decodeText fuel ⟨p⟩ with
      | none => none
      | some parsed =>
        if subMode then
          procFrames subMode hasCallback fuel ps
            (if !s.stopped && hasCallback then { s with delivered := s.delivered ++ [parsed] }
             else s)
        else
          procFrames subMode hasCallback fuel ps (resolveOnce (.value parsed) { s with destroyed := true })

/-- One event of sendData's connection: finalizeConnect writes the framed
message and, in subscription mode, resolves the handle at once; a data
chunk is appended to the buffer, split at newlines, the last part kept
buffered and the complete parts processed; end-of-stream decodes the
buffered remainder for a one-shot call; socket errors and the idle timeout
resolve descriptive results and destroy the socket; stop marks the handle
inert and destroys the socket. -/
def stepEv (message : String) (hasCallback : Bool) (fuel : Nat) (s : ConnState) :
    Ev → Option ConnState
  | .connect =>
    let s1 := { s with written := s.written ++ [message ++ "\n"] }
    some (if jsIncludes message "subscribe" then resolveOnce .handle s1 else s1)
  | .data chunk =>
    let parts := splitNl (s.buffer ++ chunk.data)
    procFrames (jsIncludes message "subscribe") hasCallback fuel parts.dropLast
      { s with buffer := parts.getLastD [] }
  | .eos =>
    if jsIncludes message "subscribe" then some s
    else
      (match decodeText fuel ⟨s.buffer⟩ with
       | some parsed => some (resolveOnce (.value parsed) s)
       | none => none)
  | .sockError m =>
    some { (if jsIncludes message "subscribe" then s
            else resolveOnce (.failure ("Connection error: " ++ m)) s) with destroyed := true }
  | .timeout =>
    some { (if jsIncludes message "subscribe" then s
            else resolveOnce (.failure "Operation timed out") s) with destroyed := true }
  | .stop => some { s with stopped := true, destroyed := true }

/-- A run of sendData's connection over an event trace. -/
def runEvents (message : String) (hasCallback : Bool) (fuel : Nat) (evs : List Ev)
    (s : ConnState) : Option ConnState :=
  evs.foldlM (stepEv message hasCallback fuel) s

/-! ### Predicates used to state the claims -/

/-- Divergence of recursiveParseJSON at an input: no call depth completes. -/
def rpjDivergesOn (v : JSVal) : Prop := ∀ f, recursiveParseJSON f v = none

/-- A value whose string leaves the decoder disposes of at one level: each
either passes the digit guard or fails to parse as wire text.  (jfrac
carries nonempty source text, as every numeral the parser yields does.)
On such values the decoder's recursion completes (claim c10). -/
inductive LeavesOk : JSVal → Prop where
  | nullL : LeavesOk .jnull
  | boolL (b : Bool) : LeavesOk (.jbool b)
  | numL (n : Int) : LeavesOk (.jnum n)
  | fracL (raw : List Char) : raw ≠ [] → LeavesOk (.jfrac raw)
  | strL (s : String) : (digitGuard s || (jsonParse s).isNone) = true → LeavesOk (.jstr s)
  | arrL (l : List JSVal) : (∀ v ∈ l, LeavesOk v) → LeavesOk (.jarr l)
  | objL (fl : List (String × JSVal)) : (∀ kv ∈ fl, LeavesOk kv.2) → LeavesOk (.jobj fl)

/-- The value universe the encode/decode round trip holds on (claim c1):
integers whose decimal text fits json-bigint's 15-character number window,
string leaves that either pass the digit guard (decimal strings up to
2^64 - 1) or do not parse as wire text, and map keys on which the
program's parseInt normalisation is provably the identity (safeKey: no
digit prefix, or the canonical decimal of an integer below 2^53, the
window where parseInt's double arithmetic is exact). -/
inductive Supported : JSVal → Prop where
  | nullS : Supported .jnull
  | boolS (b : Bool) : Supported (.jbool b)
  | numS (n : Int) : (intChars n).length ≤ 15 → Supported (.jnum n)
  | strS (s : String) : (digitGuard s || (jsonParse s).isNone) = true → Supported (.jstr s)
  | arrS (l : List JSVal) : (∀ v ∈ l, Supported v) → Supported (.jarr l)
  | objS (fl : List (String × JSVal)) : (∀ kv ∈ fl, safeKey kv.1 = true) →
      (∀ kv ∈ fl, Supported kv.2) → Supported (.jobj fl)

/-- Top-level values whose wire text the decoder does not renumber: a bare
number's text is all digits, which the digit guard intercepts, so the
round trip concerns the other constructors at top level (the engine
protocol carries 64-bit-scale integers as decimal strings). -/
def topDecodable : JSVal → Prop
  | .jnum _ => False
  | .jfrac _ => False
  | _ => True

/-- A remainder that cannot extend a numeral: empty or headed by a
character that is no digit, sign, dot or exponent marker.  The separators
and terminators of the wire grammar all qualify. -/
def numDelim : List Char → Bool
  | [] => true
  | c :: _ => !(isDigitC c || c == '-' || c == '+' || c == '.' || c == 'e' || c == 'E')


/-- The remainders a printed value's text is followed by inside a larger
printed text: nothing, or a separator/terminator of the wire grammar. -/
def sepRest (rest : List Char) : Prop :=
  rest = [] ∨ (∃ x, rest = ',' :: x) ∨ (∃ x, rest = ']' :: x)
    ∨ (∃ x, rest = '\x7d' :: x)

/-- A subscription frame the claims quantify over: newline-free, not
blank, and decoded by recursiveParseJSON at the given depth. -/
def goodFrame (fuel : Nat) (f : String) (d : JSVal) : Prop :=
  f.data.contains '\n' = false ∧ (trimChars f.data).isEmpty = false
    ∧ decodeText fuel f = some d

end Montycat

/-! ## Claim lemmas and theorems -/

namespace Montycat

/-! ### Shared lemmas -/

theorem bindOk {α β : Type} {x : Except String α} {g : α → Except String β} {b : β}
    (h : (x >>= g) = .ok b) : ∃ a, x = .ok a ∧ g a = .ok b := by
  cases x with
  | error e => simp [Bind.bind, Except.bind] at h
  | ok a => exact ⟨a, rfl, by simpa [Bind.bind, Except.bind] using h⟩

theorem lookup_cons_eq {α : Type} (k k1 : String) (v : α) (t : List (String × α))
    (h : k = k1) : List.lookup k ((k1, v) :: t) = some v := by
  simp [List.lookup, beq_iff_eq.mpr h]

theorem lookup_cons_ne {α : Type} (k k1 : String) (v : α) (t : List (String × α))
    (h : k ≠ k1) : List.lookup k ((k1, v) :: t) = List.lookup k t := by
  simp [List.lookup, beq_eq_false_iff_ne.mpr h]

theorem lookup_filter_self (l : List (String × FieldVal)) (k : String) :
    (l.filter (fun (kv : String × FieldVal) => kv.1 ≠ k)).lookup k = none := by
  induction l with
  | nil => rfl
  | cons kv t ih =>
    obtain ⟨k1, v1⟩ := kv
    rw [List.filter_cons]
    by_cases h : k1 = k
    · rw [if_neg (by simp [h])]
      exact ih
    · rw [if_pos (by simp [h]), lookup_cons_ne _ _ _ _ (Ne.symm h)]
      exact ih

theorem lookup_filter_other (l : List (String × FieldVal)) (k k2 : String) (hne : k2 ≠ k) :
    (l.filter (fun (kv : String × FieldVal) => kv.1 ≠ k)).lookup k2 = l.lookup k2 := by
  induction l with
  | nil => rfl
  | cons kv t ih =>
    obtain ⟨k1, v1⟩ := kv
    rw [List.filter_cons]
    by_cases h : k1 = k
    · rw [if_neg (by simp [h]), lookup_cons_ne _ _ _ _ (h ▸ hne)]
      exact ih
    · rw [if_pos (by simp [h])]
      by_cases h2 : k2 = k1
      · rw [lookup_cons_eq _ _ _ _ h2, lookup_cons_eq _ _ _ _ h2]
      · rw [lookup_cons_ne _ _ _ _ h2, lookup_cons_ne _ _ _ _ h2]
        exact ih

theorem mres_lookup (l : List (String × FieldVal)) (r : List (String × FieldVal))
    (h : (l.mapM (fun (kv : String × FieldVal) =>
           (resolveField kv.2).map (fun fv => (kv.1, fv)))) = Except.ok r) (k : String) :
    (l.lookup k = none → r.lookup k = none)
    ∧ (∀ fv, l.lookup k = some fv →
        ∃ fv2, resolveField fv = .ok fv2 ∧ r.lookup k = some fv2) := by
  induction l generalizing r with
  | nil =>
    simp only [List.mapM_nil, pure, Except.pure, Except.ok.injEq] at h
    subst h
    simp [List.lookup]
  | cons kv t ih =>
    obtain ⟨k1, v1⟩ := kv
    rw [List.mapM_cons] at h
    obtain ⟨a, ha, h2⟩ := bindOk h
    obtain ⟨rest, hrest, h3⟩ := bindOk h2
    simp only [pure, Except.pure, Except.ok.injEq] at h3
    cases hres : resolveField v1 with
    | error e => simp [hres, Except.map] at ha
    | ok fv2 =>
      simp only [hres, Except.map, Except.ok.injEq] at ha
      subst ha
      subst h3
      by_cases hk : k = k1
      · refine ⟨fun hnone => ?_, fun fv hfv => ?_⟩
        · rw [lookup_cons_eq _ _ _ _ hk] at hnone
          simp at hnone
        · rw [lookup_cons_eq _ _ _ _ hk] at hfv
          cases hfv
          exact ⟨fv2, hres, lookup_cons_eq _ _ _ _ hk⟩
      · obtain ⟨ihn, ihs⟩ := ih rest hrest
        refine ⟨fun hnone => ?_, fun fv hfv => ?_⟩
        · rw [lookup_cons_ne _ _ _ _ hk] at hnone
          rw [lookup_cons_ne _ _ _ _ hk]
          exact ihn hnone
        · rw [lookup_cons_ne _ _ _ _ hk] at hfv
          obtain ⟨fv2b, hr1, hr2⟩ := ihs fv hfv
          exact ⟨fv2b, hr1, by rw [lookup_cons_ne _ _ _ _ hk]; exact hr2⟩

theorem processValue_vobj (fields : List (String × FieldVal)) :
    processValue (.vobj fields) =
      ((match fields.lookup "schema" with
        | some _ => fields.filter (fun (kv : String × FieldVal) => kv.1 ≠ "schema")
        | none => fields).mapM
          (fun (kv : String × FieldVal) => (resolveField kv.2).map (fun fv => (kv.1, fv)))).map
        (fun resolved => (.vobj resolved, fields.lookup "schema")) := rfl

theorem decode_raw (s : String) (f : Nat) (h : jsonParse s = none) :
    decodeText (f + 1) s = some (.jstr s) := by
  by_cases hg : digitGuard s
  · simp [decodeText, recursiveParseJSON, rpjGo, hg]
  · simp [decodeText, recursiveParseJSON, rpjGo, hg, h]

theorem rpjGo_mono (f : Nat) : ∀ (a : RArg) (r : ROut),
    rpjGo f a = some r → rpjGo (f + 1) a = some r := by
  induction f with
  | zero => intro a r h; simp [rpjGo] at h
  | succ f ih =>
    intro a r h
    match a with
    | .argV (.jstr s) =>
      rw [rpjGo] at h
      rw [rpjGo]
      by_cases hg : digitGuard s
      · rw [if_pos hg] at h; rw [if_pos hg]; exact h
      · rw [if_neg hg] at h; rw [if_neg hg]
        cases hp : jsonParse s with
        | none => rw [hp] at h; exact h
        | some v => rw [hp] at h; exact ih _ _ h
    | .argV (.jarr l) =>
      rw [rpjGo] at h
      rw [rpjGo]
      cases hm : rpjGo f (.argL l) with
      | none => rw [hm] at h; simp at h
      | some o =>
        rw [hm] at h
        rw [ih _ _ hm]
        exact h
    | .argV (.jobj fl) =>
      rw [rpjGo] at h
      rw [rpjGo]
      cases hm : rpjGo f (.argF fl) with
      | none => rw [hm] at h; simp at h
      | some o =>
        rw [hm] at h
        rw [ih _ _ hm]
        exact h
    | .argV .jnull => exact h
    | .argV (.jbool b) => exact h
    | .argV (.jnum n) => exact h
    | .argV (.jfrac raw) => exact h
    | .argL [] => exact h
    | .argL (v :: t) =>
      rw [rpjGo] at h
      rw [rpjGo]
      cases hv : rpjGo f (.argV v) with
      | none => rw [hv] at h; simp at h
      | some ov =>
        cases ht : rpjGo f (.argL t) with
        | none => rw [hv, ht] at h; cases ov <;> simp at h
        | some ot =>
          rw [hv, ht] at h
          rw [ih _ _ hv, ih _ _ ht]
          exact h
    | .argF [] => exact h
    | .argF ((k, v) :: t) =>
      rw [rpjGo] at h
      rw [rpjGo]
      cases hv : rpjGo f (.argV v) with
      | none => rw [hv] at h; simp at h
      | some ov =>
        cases ht : rpjGo f (.argF t) with
        | none => rw [hv, ht] at h; cases ov <;> simp at h
        | some ot =>
          rw [hv, ht] at h
          rw [ih _ _ hv, ih _ _ ht]
          exact h

theorem rpjGo_mono_le {f g : Nat} (h : f ≤ g) {a : RArg} {r : ROut}
    (hr : rpjGo f a = some r) : rpjGo g a = some r := by
  induction g with
  | zero =>
    have : f = 0 := by omega
    subst this
    exact hr
  | succ g ih =>
    rcases Nat.lt_or_ge f (g + 1) with hlt | hge
    · exact rpjGo_mono g _ _ (ih (by omega))
    · have : f = g + 1 := by omega
      subst this
      exact hr

theorem rpjGo_argL_total (l : List JSVal)
    (h : ∀ v ∈ l, ∃ f r, rpjGo f (.argV v) = some (.outV r)) :
    ∃ f l2, rpjGo f (.argL l) = some (.outL l2) := by
  induction l with
  | nil => exact ⟨1, [], rfl⟩
  | cons v t ih =>
    obtain ⟨f1, r, hr⟩ := h v (by simp)
    obtain ⟨f2, l2, hl⟩ := ih (fun x hx => h x (by simp [hx]))
    refine ⟨max f1 f2 + 1, r :: l2, ?_⟩
    rw [rpjGo, rpjGo_mono_le (Nat.le_max_left f1 f2) hr,
        rpjGo_mono_le (Nat.le_max_right f1 f2) hl]

theorem rpjGo_argF_total (fl : List (String × JSVal))
    (h : ∀ kv ∈ fl, ∃ f r, rpjGo f (.argV kv.2) = some (.outV r)) :
    ∃ f l2, rpjGo f (.argF fl) = some (.outF l2) := by
  induction fl with
  | nil => exact ⟨1, [], rfl⟩
  | cons kv t ih =>
    obtain ⟨k, v⟩ := kv
    obtain ⟨f1, r, hr⟩ := h (k, v) (by simp)
    obtain ⟨f2, l2, hl⟩ := ih (fun x hx => h x (by simp [hx]))
    refine ⟨max f1 f2 + 1, (normKey k, r) :: l2, ?_⟩
    rw [rpjGo, rpjGo_mono_le (Nat.le_max_left f1 f2) hr,
        rpjGo_mono_le (Nat.le_max_right f1 f2) hl]

theorem rpjGo_total {v : JSVal} (h : LeavesOk v) :
    ∃ f r, rpjGo f (.argV v) = some (.outV r) := by
  induction h with
  | nullL => exact ⟨1, .jnull, rfl⟩
  | boolL b => exact ⟨1, .jbool b, rfl⟩
  | numL n => exact ⟨1, .jnum n, rfl⟩
  | fracL raw hne => exact ⟨1, .jfrac raw, rfl⟩
  | strL s hcond =>
    refine ⟨1, .jstr s, ?_⟩
    rw [rpjGo]
    by_cases hg : digitGuard s
    · rw [if_pos hg]
    · rw [if_neg hg]
      rw [Bool.or_eq_true] at hcond
      rcases hcond with hc | hc
      · exact absurd hc hg
      · rw [Option.isNone_iff_eq_none] at hc
        rw [hc]
  | arrL l hmem ih =>
    obtain ⟨f, l2, hl⟩ := rpjGo_argL_total l ih
    exact ⟨f + 1, .jarr l2, by rw [rpjGo, hl]⟩
  | objL fl hmem ih =>
    obtain ⟨f, l2, hl⟩ := rpjGo_argF_total fl ih
    exact ⟨f + 1, .jobj l2, by rw [rpjGo, hl]⟩

theorem buildEnvelope_flags (cls : Ctx) (o : BuildOptions) (e : Envelope)
    (h : buildEnvelope cls o = .ok e) :
    e.with_pointers = o.withPointers ∧ e.pointers_metadata = o.pointersMetadata := by
  rw [buildEnvelope] at h
  obtain ⟨pv, hpv, h⟩ := bindOk h
  obtain ⟨pbv, hpbv, h⟩ := bindOk h
  obtain ⟨bkv, hbkv, h⟩ := bindOk h
  obtain ⟨psc, hpsc, h⟩ := bindOk h
  simp only [pure, Except.pure, Except.ok.injEq] at h
  subst h
  exact ⟨rfl, rfl⟩

theorem splitNl_frame (xs : List Char) (h : xs.contains '\n' = false) :
    splitNl (xs ++ ['\n']) = [xs, []] := by
  induction xs with
  | nil => rfl
  | cons c t ih =>
    simp only [List.contains_cons, Bool.or_eq_false_iff, beq_eq_false_iff_ne] at h
    have hc : (c == '\n') = false := beq_eq_false_iff_ne.mpr (Ne.symm h.1)
    have ht : t.contains '\n' = false := h.2
    rw [List.cons_append, splitNl, if_neg (by simp [hc]), ih ht]

theorem stringMk_data (line : String) : (⟨line.data⟩ : String) = line := rfl

theorem normKey_of_safeKey {k : String} (h : safeKey k = true) : normKey k = k := by
  rw [safeKey] at h
  rw [normKey]
  cases hp : jsParseInt k with
  | none => rfl
  | some i =>
    rw [hp] at h
    have h2 : (decide (i.natAbs < 2 ^ 53) && (intStr i == k)) = true := h
    simp only [Bool.and_eq_true, beq_iff_eq, decide_eq_true_eq] at h2
    exact h2.2

theorem mapM_get_ok {α β : Type} {f : α → Except String β} {l : List α} {r : List β}
    (h : l.mapM f = .ok r) :
    ∀ (i : Nat) (a : α), l[i]? = some a → ∃ b, f a = .ok b ∧ r[i]? = some b := by
  induction l generalizing r with
  | nil =>
    intro i a ha
    simp at ha
  | cons x t ih =>
    rw [List.mapM_cons] at h
    obtain ⟨b, hb, h2⟩ := bindOk h
    obtain ⟨rest, hrest, h3⟩ := bindOk h2
    simp only [pure, Except.pure, Except.ok.injEq] at h3
    subst h3
    intro i a ha
    cases i with
    | zero =>
      simp only [List.getElem?_cons_zero, Option.some.injEq] at ha
      subst ha
      exact ⟨b, hb, by simp⟩
    | succ j =>
      simp only [List.getElem?_cons_succ] at ha
      obtain ⟨c, hc1, hc2⟩ := ih hrest j a ha
      exact ⟨c, hc1, by simpa using hc2⟩

theorem digit_char_spec (n : Nat) (h : n < 10) : isDigitC (Char.ofNat (48 + n)) = true := by
  interval_cases n <;> decide

theorem digit_char_toNat (n : Nat) (h : n < 10) : (Char.ofNat (48 + n)).toNat = 48 + n := by
  interval_cases n <;> decide

theorem natDigitsAux_ne_nil (f n : Nat) (h : 0 < f) : natDigitsAux f n ≠ [] := by
  cases f with
  | zero => omega
  | succ f =>
    rw [natDigitsAux]
    by_cases hn : n < 10
    · simp [hn]
    · simp [hn]

theorem natDigits_ne_nil (n : Nat) : natDigits n ≠ [] :=
  natDigitsAux_ne_nil (n + 1) n (by omega)

theorem natDigitsAux_digits (f : Nat) : ∀ n, ∀ c ∈ natDigitsAux f n, isDigitC c = true := by
  induction f with
  | zero => intro n c hc; simp [natDigitsAux] at hc
  | succ f ih =>
    intro n c hc
    rw [natDigitsAux] at hc
    by_cases hn : n < 10
    · rw [if_pos hn] at hc
      simp only [List.mem_singleton] at hc
      subst hc
      exact digit_char_spec n hn
    · rw [if_neg hn] at hc
      rcases List.mem_append.mp hc with h1 | h2
      · exact ih _ c h1
      · simp only [List.mem_singleton] at h2
        subst h2
        exact digit_char_spec (n % 10) (Nat.mod_lt n (by omega))

theorem natDigits_digits (n : Nat) : ∀ c ∈ natDigits n, isDigitC c = true :=
  natDigitsAux_digits (n + 1) n

theorem digitsToNat_nil (acc : Nat) : digitsToNat acc [] = acc := rfl

theorem digitsToNat_cons (acc : Nat) (c : Char) (cs : List Char) :
    digitsToNat acc (c :: cs) = digitsToNat (acc * 10 + (c.toNat - 48)) cs := rfl

theorem digitsToNat_append (xs ys : List Char) : ∀ acc,
    digitsToNat acc (xs ++ ys) = digitsToNat (digitsToNat acc xs) ys := by
  induction xs with
  | nil => intro acc; rfl
  | cons c t ih =>
    intro acc
    rw [List.cons_append, digitsToNat_cons, digitsToNat_cons]
    exact ih _

theorem digitsToNat_natDigitsAux (f : Nat) : ∀ n acc, n < 10 ^ f →
    digitsToNat acc (natDigitsAux f n) = acc * 10 ^ (natDigitsAux f n).length + n := by
  induction f with
  | zero =>
    intro n acc h
    simp [natDigitsAux, digitsToNat_nil]
    omega
  | succ f ih =>
    intro n acc h
    rw [natDigitsAux]
    by_cases hn : n < 10
    · rw [if_pos hn]
      rw [digitsToNat_cons, digitsToNat_nil]
      rw [digit_char_toNat n hn]
      simp only [List.length_singleton, pow_one]
      omega
    · rw [if_neg hn]
      rw [digitsToNat_append]
      have hdiv : n / 10 < 10 ^ f := by
        have := Nat.pow_succ 10 f
        omega
      rw [ih (n / 10) acc hdiv]
      rw [digitsToNat_cons, digitsToNat_nil]
      rw [digit_char_toNat (n % 10) (Nat.mod_lt n (by omega))]
      simp only [List.length_append, List.length_singleton]
      rw [pow_succ]
      have h1 : (natDigitsAux f (n / 10)).length + 1 - 1 = (natDigitsAux f (n / 10)).length := by omega
      have h2 : n = 10 * (n / 10) + n % 10 := (Nat.div_add_mod n 10).symm ▸ rfl
      ring_nf
      omega

theorem digitsToNat_natDigits (n : Nat) : digitsToNat 0 (natDigits n) = n := by
  have hlt : n < 10 ^ (n + 1) := by
    calc n < 10 ^ n := Nat.lt_pow_self (by omega) n
    _ ≤ 10 ^ (n + 1) := Nat.pow_le_pow_right (by omega) (by omega)
  have := digitsToNat_natDigitsAux (n + 1) n 0 hlt
  simpa [natDigits] using this

theorem takeWhile_digits_append (ds rest : List Char)
    (hds : ∀ c ∈ ds, isDigitC c = true) (hrest : sepRest rest) :
    (ds ++ rest).takeWhile isDigitC = ds ∧ (ds ++ rest).dropWhile isDigitC = rest := by
  induction ds with
  | nil =>
    rcases hrest with rfl | ⟨x, rfl⟩ | ⟨x, rfl⟩ | ⟨x, rfl⟩ <;>
      simp [List.takeWhile_cons, List.dropWhile_cons, isDigitC]
  | cons d t ih =>
    have hd : isDigitC d = true := hds d (by simp)
    have := ih (fun c hc => hds c (by simp [hc]))
    simp [List.takeWhile_cons, List.dropWhile_cons, hd, this.1, this.2]

theorem parseNumber_digits (ds rest : List Char) (hne : ds ≠ [])
    (hdig : ∀ c ∈ ds, isDigitC c = true) (h15 : ds.length ≤ 15)
    (hrest : sepRest rest) :
    parseNumber (ds ++ rest) = some (.jnum (digitsToNat 0 ds : Int), rest) := by
  obtain ⟨d, t, rfl⟩ : ∃ d t, ds = d :: t := by
    cases ds with
    | nil => exact absurd rfl hne
    | cons d t => exact ⟨d, t, rfl⟩
  have hd : isDigitC d = true := hdig d (by simp)
  have htw := takeWhile_digits_append (d :: t) rest hdig hrest
  have hlen : ¬((d :: t : List Char).length > 15) := by omega
  simp only [List.length_cons] at h15
  rw [parseNumber]
  · rw [htw.1, htw.2]
    rcases hrest with rfl | ⟨x, rfl⟩ | ⟨x, rfl⟩ | ⟨x, rfl⟩ <;>
      (simp [hlen]; omega)
  · intro r h
    have hdm : d = '-' := List.head_eq_of_cons_eq h
    rw [hdm] at hd
    simp [isDigitC] at hd



theorem parseNumber_neg_digits (ds rest : List Char) (hne : ds ≠ [])
    (hdig : ∀ c ∈ ds, isDigitC c = true) (h15 : ds.length + 1 ≤ 15)
    (hrest : sepRest rest) :
    parseNumber (('-' :: ds) ++ rest) = some (.jnum (-(digitsToNat 0 ds : Int)), rest) := by
  obtain ⟨d, t, rfl⟩ : ∃ d t, ds = d :: t := by
    cases ds with
    | nil => exact absurd rfl hne
    | cons d t => exact ⟨d, t, rfl⟩
  have hd : isDigitC d = true := hdig d (by simp)
  have htw := takeWhile_digits_append (d :: t) rest hdig hrest
  have hlen : ¬((d :: t : List Char).length + 1 > 15) := by omega
  simp only [List.length_cons] at h15
  rw [List.cons_append, parseNumber]
  rw [htw.1, htw.2]
  rcases hrest with rfl | ⟨x, rfl⟩ | ⟨x, rfl⟩ | ⟨x, rfl⟩ <;>
    (simp [hlen]; omega)



theorem escBody_nil : escBody [] = [] := rfl

theorem escBody_cons (c : Char) (cs : List Char) :
    escBody (c :: cs) = escChar c ++ escBody cs := rfl

theorem escChar_length (c : Char) : 1 ≤ (escChar c).length := by
  unfold escChar
  split <;> (try split) <;> simp

theorem escBody_length (cs : List Char) : cs.length ≤ (escBody cs).length := by
  induction cs with
  | nil => simp [escBody_nil]
  | cons c t ih =>
    rw [escBody_cons, List.length_append, List.length_cons]
    have := escChar_length c
    omega

theorem escChar_other (c : Char) (h1 : c ≠ '"') (h2 : c ≠ '\\') (h3 : c ≠ '\x08')
    (h4 : c ≠ '\x0c') (h5 : c ≠ '\n') (h6 : c ≠ '\r') (h7 : c ≠ '\t') :
    escChar c = if c.toNat < 32 then
      ['\\', 'u', '0', '0', hexLower (c.toNat / 16), hexLower (c.toNat % 16)]
    else [c] := by
  unfold escChar
  split
  · exact absurd rfl h1
  · exact absurd rfl h2
  · exact absurd rfl h3
  · exact absurd rfl h4
  · exact absurd rfl h5
  · exact absurd rfl h6
  · exact absurd rfl h7
  · rfl

theorem hexValC_hexLower (m : Nat) (h : m < 16) : hexValC (hexLower m) = some m := by
  interval_cases m <;> decide

theorem readHex4_zero (acc : Nat) (cs : List Char) : readHex4 0 acc cs = (acc, cs) := rfl

theorem readHex4_cons (k acc : Nat) (c : Char) (cs : List Char) :
    readHex4 (k + 1) acc (c :: cs) =
      match hexValC c with
      | some v => readHex4 k (acc * 16 + v) cs
      | none => (acc, cs) := rfl

theorem parseStrBody_cons (f : Nat) (acc : List Char) (c : Char) (r : List Char) :
    parseStrBody (f + 1) acc (c :: r) =
      if c == '"' then some (⟨acc⟩, r)
      else if c == '\\' then
        match r with
        | [] => none
        | 'u' :: r2 =>
          let (u, r3) := readHex4 4 0 r2
          if validScalar u then parseStrBody f (acc ++ [Char.ofNat u]) r3 else none
        | e :: r2 =>
          match escapee e with
          | some ec => parseStrBody f (acc ++ [ec]) r2
          | none => none
      else parseStrBody f (acc ++ [c]) r := rfl

theorem parseStrBody_esc (cs : List Char) : ∀ fuel acc rest, cs.length < fuel →
    parseStrBody fuel acc (escBody cs ++ ('"' :: rest)) = some (⟨acc ++ cs⟩, rest) := by
  induction cs with
  | nil =>
    intro fuel acc rest h
    cases fuel with
    | zero => omega
    | succ f =>
      rw [escBody_nil, List.nil_append]
      simp only [List.append_nil]
      rfl
  | cons c t ih =>
    intro fuel acc rest h
    cases fuel with
    | zero => omega
    | succ f =>
      have hlt : t.length < f := by simpa using Nat.lt_of_succ_lt_succ h
      rw [escBody_cons]
      by_cases h1 : c = '"'
      · subst h1
        have step : ∀ X, parseStrBody (f + 1) acc (('\\' :: '"' :: []) ++ X)
            = parseStrBody f (acc ++ ['"']) X := fun X => rfl
        rw [show escChar '"' = ['\\', '"'] from rfl, List.append_assoc, step,
            ih f (acc ++ ['"']) rest hlt, List.append_assoc]
        rfl
      · by_cases h2 : c = '\\'
        · subst h2
          have step : ∀ X, parseStrBody (f + 1) acc (('\\' :: '\\' :: []) ++ X)
              = parseStrBody f (acc ++ ['\\']) X := fun X => rfl
          rw [show escChar '\\' = ['\\', '\\'] from rfl, List.append_assoc, step,
              ih f (acc ++ ['\\']) rest hlt, List.append_assoc]
          rfl
        · by_cases h3 : c = '\x08'
          · subst h3
            have step : ∀ X, parseStrBody (f + 1) acc (('\\' :: 'b' :: []) ++ X)
                = parseStrBody f (acc ++ ['\x08']) X := fun X => rfl
            rw [show escChar '\x08' = ['\\', 'b'] from rfl, List.append_assoc, step,
                ih f (acc ++ ['\x08']) rest hlt, List.append_assoc]
            rfl
          · by_cases h4 : c = '\x0c'
            · subst h4
              have step : ∀ X, parseStrBody (f + 1) acc (('\\' :: 'f' :: []) ++ X)
                  = parseStrBody f (acc ++ ['\x0c']) X := fun X => rfl
              rw [show escChar '\x0c' = ['\\', 'f'] from rfl, List.append_assoc, step,
                  ih f (acc ++ ['\x0c']) rest hlt, List.append_assoc]
              rfl
            · by_cases h5 : c = '\n'
              · subst h5
                have step : ∀ X, parseStrBody (f + 1) acc (('\\' :: 'n' :: []) ++ X)
                    = parseStrBody f (acc ++ ['\n']) X := fun X => rfl
                rw [show escChar '\n' = ['\\', 'n'] from rfl, List.append_assoc, step,
                    ih f (acc ++ ['\n']) rest hlt, List.append_assoc]
                rfl
              · by_cases h6 : c = '\r'
                · subst h6
                  have step : ∀ X, parseStrBody (f + 1) acc (('\\' :: 'r' :: []) ++ X)
                      = parseStrBody f (acc ++ ['\r']) X := fun X => rfl
                  rw [show escChar '\r' = ['\\', 'r'] from rfl, List.append_assoc, step,
                      ih f (acc ++ ['\r']) rest hlt, List.append_assoc]
                  rfl
                · by_cases h7 : c = '\t'
                  · subst h7
                    have step : ∀ X, parseStrBody (f + 1) acc (('\\' :: 't' :: []) ++ X)
                        = parseStrBody f (acc ++ ['\t']) X := fun X => rfl
                    rw [show escChar '\t' = ['\\', 't'] from rfl, List.append_assoc, step,
                        ih f (acc ++ ['\t']) rest hlt, List.append_assoc]
                    rfl
                  · rw [escChar_other c h1 h2 h3 h4 h5 h6 h7]
                    by_cases hc : c.toNat < 32
                    · rw [if_pos hc]
                      have hdiv : c.toNat / 16 < 16 := by omega
                      have hmod : c.toNat % 16 < 16 := Nat.mod_lt _ (by omega)
                      have stepu : ∀ Y, parseStrBody (f + 1) acc ('\\' :: 'u' :: Y)
                          = (match readHex4 4 0 Y with
                             | (u, r3) =>
                               if validScalar u then
                                 parseStrBody f (acc ++ [Char.ofNat u]) r3
                               else none) := fun Y => rfl
                      have hh4 : readHex4 4 0
                          ('0' :: '0' :: hexLower (c.toNat / 16) :: hexLower (c.toNat % 16)
                            :: (escBody t ++ ('"' :: rest))) = (c.toNat, escBody t ++ ('"' :: rest)) := by
                        rw [readHex4_cons]
                        simp only [show hexValC '0' = some 0 from rfl]
                        rw [readHex4_cons]
                        simp only [show hexValC '0' = some 0 from rfl]
                        rw [readHex4_cons, hexValC_hexLower _ hdiv]
                        simp only
                        rw [readHex4_cons, hexValC_hexLower _ hmod]
                        simp only [readHex4_zero]
                        have : ((0 * 16 + 0) * 16 + c.toNat / 16) * 16 + c.toNat % 16 = c.toNat := by
                          omega
                        rw [this]
                      have hvs : validScalar c.toNat = true := by
                        simp [validScalar]
                        omega
                      simp only [List.cons_append, List.nil_append, List.append_assoc]
                      rw [stepu, hh4]
                      simp only [hvs, if_true, Char.ofNat_toNat]
                      rw [ih f (acc ++ [c]) rest hlt, List.append_assoc]
                      rfl
                    · rw [if_neg hc]
                      have hq : (c == '"') = false := by simp [h1]
                      have hb : (c == '\\') = false := by simp [h2]
                      simp only [List.cons_append, List.nil_append]
                      rw [parseStrBody_cons, if_neg (by simp [hq]), if_neg (by simp [hb]),
                          ih f (acc ++ [c]) rest hlt, List.append_assoc]
                      rfl

theorem parseNumber_intChars (n : Int) (rest : List Char)
    (h15 : (intChars n).length ≤ 15) (hrest : sepRest rest) :
    parseNumber (intChars n ++ rest) = some (.jnum n, rest) := by
  by_cases hn : n < 0
  · have he : intChars n = '-' :: natDigits n.natAbs := by
      rw [intChars, if_pos hn]; rfl
    rw [he] at h15 ⊢
    rw [parseNumber_neg_digits _ rest (natDigits_ne_nil _) (natDigits_digits _)
        (by simpa using h15) hrest]
    rw [digitsToNat_natDigits]
    have hv : -((n.natAbs : Nat) : Int) = n := by omega
    rw [hv]
  · have he : intChars n = natDigits n.natAbs := by
      rw [intChars, if_neg hn]; rfl
    rw [he] at h15 ⊢
    rw [parseNumber_digits _ rest (natDigits_ne_nil _) (natDigits_digits _) h15 hrest]
    rw [digitsToNat_natDigits]
    have hv : ((n.natAbs : Nat) : Int) = n := by omega
    rw [hv]

theorem step_data_frame (msg : String) (cb : Bool) (fuel : Nat) (s : ConnState)
    (line : String) (d : JSVal) (hb : s.buffer = [])
    (hnl : line.data.contains '\n' = false)
    (hblank : (trimChars line.data).isEmpty = false)
    (hdec : decodeText fuel line = some d) :
    stepEv msg cb fuel s (.data (line ++ "\n"))
      = some (if jsIncludes msg "subscribe"
              then (if !s.stopped && cb
                    then { s with buffer := [], delivered := s.delivered ++ [d] }
                    else { s with buffer := [] })
              else resolveOnce (.value d) { s with buffer := [], destroyed := true }) := by
  rw [stepEv, hb]
  rw [show (line ++ "\n").data = line.data ++ ['\n'] from String.data_append line "\n"]
  rw [List.nil_append, splitNl_frame line.data hnl]
  rw [show ([line.data, []] : List (List Char)).dropLast = [line.data] from rfl]
  rw [show ([line.data, []] : List (List Char)).getLastD [] = [] from rfl]
  rw [procFrames, if_neg (by simp [hblank])]
  rw [stringMk_data, hdec]
  by_cases hsub : jsIncludes msg "subscribe"
  · by_cases hst : (!s.stopped && cb) = true
    · simp [hsub, hst, procFrames]
    · simp [hsub, hst, procFrames]
  · simp [hsub, procFrames]

theorem skipWs_cons {c : Char} (r : List Char) (h : isWsC c = false) :
    skipWs (c :: r) = c :: r := by
  rw [skipWs, if_neg (by simp [h])]

theorem isDigitC_not_ws {c : Char} (h : isDigitC c = true) : isWsC c = false := by
  rw [isDigitC] at h
  simp only [Bool.and_eq_true, decide_eq_true_eq] at h
  have h48 : 48 ≤ c.toNat := h.1
  rw [isWsC]
  simp only [decide_eq_false_iff_not]
  omega

theorem parseF_pval (f : Nat) (cs : List Char) :
    parseF (f + 1) .pval cs =
      (match skipWs cs with
       | 'n' :: 'u' :: 'l' :: 'l' :: r => some (.outV .jnull, r)
       | 't' :: 'r' :: 'u' :: 'e' :: r => some (.outV (.jbool true), r)
       | 'f' :: 'a' :: 'l' :: 's' :: 'e' :: r => some (.outV (.jbool false), r)
       | '"' :: r => (parseStrBody (r.length + 1) [] r).map (fun p => (.outV (.jstr p.1), p.2))
       | '[' :: r =>
         (match skipWs r with
          | ']' :: r2 => some (.outV (.jarr []), r2)
          | r2 =>
            match parseF f .pelems r2 with
            | some (.outL l, r3) => some (.outV (.jarr l), r3)
            | _ => none)
       | '\x7b' :: r =>
         (match skipWs r with
          | '\x7d' :: r2 => some (.outV (.jobj []), r2)
          | r2 =>
            match parseF f .pfields r2 with
            | some (.outF l, r3) => some (.outV (.jobj l), r3)
            | _ => none)
       | c :: r =>
         if c == '-' || isDigitC c then parseNumber (c :: r) |>.map (fun p => (.outV p.1, p.2))
         else none
       | [] => none) := rfl

theorem parseF_pelems (f : Nat) (cs : List Char) :
    parseF (f + 1) .pelems cs =
      (match parseF f .pval cs with
       | some (.outV v, r) =>
         (match skipWs r with
          | ']' :: r2 => some (.outL [v], r2)
          | ',' :: r2 =>
            (match parseF f .pelems r2 with
             | some (.outL l, r3) => some (.outL (v :: l), r3)
             | _ => none)
          | _ => none)
       | _ => none) := rfl

theorem parseF_pfields (f : Nat) (cs : List Char) :
    parseF (f + 1) .pfields cs =
      (match parseStrLit (skipWs cs) with
       | some (k, r1) =>
         (match skipWs r1 with
          | ':' :: r2 =>
            (match parseF f .pval r2 with
             | some (.outV v, r3) =>
               (match skipWs r3 with
                | '\x7d' :: r4 => some (.outF [(k, v)], r4)
                | ',' :: r4 =>
                  (match parseF f .pfields r4 with
                   | some (.outF l, r5) => some (.outF ((k, v) :: l), r5)
                   | _ => none)
                | _ => none)
             | _ => none)
          | _ => none)
       | none => none) := rfl

theorem headOk_of (c : Char)
    (h : (isWsC c || decide (c = ']') || decide (c = '\x7d')) = false) :
    isWsC c = false ∧ c ≠ ']' ∧ c ≠ '\x7d' := by
  simp only [Bool.or_eq_false_iff, decide_eq_false_iff_not] at h
  exact ⟨h.1.1, h.1.2, h.2⟩

/-- The head character of a supported value's printed text is not
whitespace and is no list or object terminator. -/
theorem printVal_head (v : JSVal) (hs : Supported v) :
    ∃ c cs, printVal v = c :: cs
      ∧ isWsC c = false ∧ c ≠ ']' ∧ c ≠ '\x7d' := by
  induction hs with
  | nullS => exact ⟨'n', _, rfl, headOk_of 'n' rfl⟩
  | boolS b =>
    cases b
    · exact ⟨'f', _, rfl, headOk_of 'f' rfl⟩
    · exact ⟨'t', _, rfl, headOk_of 't' rfl⟩
  | numS n h15 =>
    by_cases hn : n < 0
    · refine ⟨'-', natDigits n.natAbs, ?_, by decide, by decide, by decide⟩
      rw [printVal, intChars, if_pos hn]
      rfl
    · obtain ⟨d, t, hdt⟩ : ∃ d t, natDigits n.natAbs = d :: t := by
        cases hnd : natDigits n.natAbs with
        | nil => exact absurd hnd (natDigits_ne_nil _)
        | cons d t => exact ⟨d, t, rfl⟩
      have hd : isDigitC d = true := by
        have := natDigits_digits n.natAbs
        rw [hdt] at this
        exact this d (by simp)
      refine ⟨d, t, ?_, isDigitC_not_ws hd, ?_, ?_⟩
      · rw [printVal, intChars, if_neg hn, List.nil_append, hdt]
      · intro hde
        rw [hde] at hd
        simp [isDigitC] at hd
      · intro hde
        rw [hde] at hd
        simp [isDigitC] at hd
  | strS s hcond => exact ⟨'"', _, rfl, headOk_of '"' rfl⟩
  | arrS l hmem ih => exact ⟨'[', _, rfl, headOk_of '[' rfl⟩
  | objS fl hkeys hmem ih => exact ⟨'\x7b', _, rfl, headOk_of '\x7b' rfl⟩

theorem printVal_pos (v : JSVal) (hs : Supported v) : 1 ≤ (printVal v).length := by
  obtain ⟨c, cs, he, -, -, -⟩ := printVal_head v hs
  rw [he]
  simp

theorem printElems_cons (v : JSVal) (t : List JSVal) :
    printElems (v :: t) = printVal v ++ printElemsTail t := rfl

theorem printElemsTail_nil : printElemsTail [] = [] := rfl

theorem printElemsTail_cons (v : JSVal) (t : List JSVal) :
    printElemsTail (v :: t) = ',' :: (printVal v ++ printElemsTail t) := rfl

theorem printFields_cons (k : String) (v : JSVal) (t : List (String × JSVal)) :
    printFields ((k, v) :: t) = printStr k ++ ':' :: (printVal v ++ printFieldsTail t) := rfl

theorem printFieldsTail_nil : printFieldsTail [] = [] := rfl

theorem printFieldsTail_cons (k : String) (v : JSVal) (t : List (String × JSVal)) :
    printFieldsTail ((k, v) :: t)
      = ',' :: (printStr k ++ ':' :: (printVal v ++ printFieldsTail t)) := rfl

theorem parseStrLit_quote (r : List Char) :
    parseStrLit ('"' :: r) = parseStrBody (r.length + 1) [] r := rfl

theorem pp_elems_aux (l : List JSVal)
    (hel : ∀ v ∈ l, 1 ≤ (printVal v).length
      ∧ ∀ f rest, sepRest rest → (printVal v).length < f →
          parseF f .pval (printVal v ++ rest) = some (.outV v, rest)) :
    ∀ f rest, (printElems l).length + 1 < f → l ≠ [] →
      parseF f .pelems (printElems l ++ (']' :: rest)) = some (.outL l, rest) := by
  induction l with
  | nil => intro f rest h hne; exact absurd rfl hne
  | cons v t ih =>
    intro f rest h hne
    obtain ⟨hv1, hv2⟩ := hel v (by simp)
    cases f with
    | zero => omega
    | succ g =>
      rw [parseF_pelems]
      cases t with
      | nil =>
        have hePE : printElems [v] = printVal v := by
          rw [printElems_cons, printElemsTail_nil, List.append_nil]
        rw [hePE] at h ⊢
        rw [hv2 g (']' :: rest) (Or.inr (Or.inr (Or.inl ⟨rest, rfl⟩))) (by omega)]
        simp [skipWs_cons, isWsC]
      | cons w t2 =>
        have hlen := h
        simp only [printElems_cons, printElemsTail_cons, List.length_append,
          List.length_cons] at hlen
        have ht2 : (printElems (w :: t2)).length
            = (printVal w).length + (printElemsTail t2).length := by
          rw [printElems_cons, List.length_append]
        simp only [printElems_cons, printElemsTail_cons, List.append_assoc,
          List.cons_append]
        rw [hv2 g (',' :: (printVal w ++ (printElemsTail t2 ++ (']' :: rest))))
            (Or.inr (Or.inl ⟨printVal w ++ (printElemsTail t2 ++ (']' :: rest)), rfl⟩))
            (by omega)]
        have hrec := ih (fun x hx => hel x (by simp [hx])) g rest (by omega)
          (by simp)
        simp only [printElems_cons, List.append_assoc] at hrec
        simp [skipWs_cons, isWsC, hrec]

theorem printStr_len (k : String) : (printStr k).length = (escBody k.data).length + 2 := by
  simp [printStr]

theorem pp_fields_aux (fl : List (String × JSVal))
    (hel : ∀ kv ∈ fl, 1 ≤ (printVal kv.2).length
      ∧ ∀ f rest, sepRest rest → (printVal kv.2).length < f →
          parseF f .pval (printVal kv.2 ++ rest) = some (.outV kv.2, rest)) :
    ∀ f rest, (printFields fl).length + 1 < f → fl ≠ [] →
      parseF f .pfields (printFields fl ++ ('\x7d' :: rest)) = some (.outF fl, rest) := by
  induction fl with
  | nil => intro f rest h hne; exact absurd rfl hne
  | cons kv t ih =>
    obtain ⟨k, v⟩ := kv
    intro f rest h hne
    obtain ⟨hv1, hv2⟩ := hel (k, v) (by simp)
    dsimp only at hv1 hv2
    cases f with
    | zero => omega
    | succ g =>
      have hlen := h
      simp only [printFields_cons, printStr, List.length_append, List.length_cons] at hlen
      rw [parseF_pfields]
      simp only [printFields_cons, printStr, List.append_assoc, List.cons_append,
        List.nil_append]
      rw [skipWs_cons _ (by decide), parseStrLit_quote]
      rw [parseStrBody_esc k.data _ []
          (':' :: (printVal v ++ (printFieldsTail t ++ ('\x7d' :: rest))))
          (by
            have := escBody_length k.data
            simp only [List.length_append, List.length_cons]
            omega)]
      simp only [List.nil_append, stringMk_data]
      cases t with
      | nil =>
        simp only [printFieldsTail_nil, List.nil_append]
        simp only [printFieldsTail_nil, List.length_nil] at hlen
        have hpv := hv2 g ('\x7d' :: rest) (Or.inr (Or.inr (Or.inr ⟨rest, rfl⟩)))
          (by omega)
        simp [skipWs_cons, isWsC, hpv]
      | cons kv2 t3 =>
        obtain ⟨k2, v2⟩ := kv2
        have hlt3 := hlen
        simp only [printFieldsTail_cons, printStr, List.length_append,
          List.length_cons] at hlt3
        simp only [printFieldsTail_cons, printStr, List.append_assoc, List.cons_append,
          List.nil_append]
        have hpv := hv2 g (',' :: ('"' :: (escBody k2.data
              ++ ('"' :: (':' :: (printVal v2 ++ (printFieldsTail t3 ++ ('\x7d' :: rest))))))))
            (Or.inr (Or.inl ⟨_, rfl⟩)) (by omega)
        have hrec := ih (fun x hx => hel x (by simp [hx])) g rest
          (by
            simp only [printFields_cons, printStr, List.length_append, List.length_cons]
            omega)
          (by simp)
        simp only [printFields_cons, printStr, List.append_assoc, List.cons_append,
          List.nil_append] at hrec
        simp [skipWs_cons, isWsC, hpv, hrec]

theorem pp_val {v : JSVal} (hs : Supported v) :
    ∀ f rest, sepRest rest → (printVal v).length < f →
      parseF f .pval (printVal v ++ rest) = some (.outV v, rest) := by
  induction hs with
  | nullS =>
    intro f rest hsep h
    cases f with
    | zero => exact absurd h (Nat.not_lt_zero _)
    | succ g => exact rfl
  | boolS b =>
    intro f rest hsep h
    cases f with
    | zero => exact absurd h (Nat.not_lt_zero _)
    | succ g => cases b <;> rfl
  | numS n h15 =>
    intro f rest hsep h
    cases f with
    | zero => exact absurd h (Nat.not_lt_zero _)
    | succ g =>
      rw [parseF_pval]
      by_cases hn : n < 0
      · have he : printVal (.jnum n) = '-' :: natDigits n.natAbs := by
          show intChars n = _
          rw [intChars, if_pos hn]
          rfl
        rw [he, List.cons_append, skipWs_cons _ (by decide)]
        have hpn : parseNumber ('-' :: (natDigits n.natAbs ++ rest))
            = some (.jnum n, rest) := by
          have hint := parseNumber_intChars n rest h15 hsep
          rw [intChars, if_pos hn] at hint
          simpa using hint
        simp [hpn]
      · have he : printVal (.jnum n) = natDigits n.natAbs := by
          show intChars n = _
          rw [intChars, if_neg hn, List.nil_append]
        obtain ⟨d, t, hdt⟩ : ∃ d t, natDigits n.natAbs = d :: t := by
          cases hnd : natDigits n.natAbs with
          | nil => exact absurd hnd (natDigits_ne_nil _)
          | cons d t => exact ⟨d, t, rfl⟩
        have hd : isDigitC d = true := by
          have hall := natDigits_digits n.natAbs
          rw [hdt] at hall
          exact hall d (by simp)
        rw [he, hdt, List.cons_append, skipWs_cons _ (isDigitC_not_ws hd)]
        have hpn : parseNumber (d :: (t ++ rest)) = some (.jnum n, rest) := by
          have hint := parseNumber_intChars n rest h15 hsep
          rw [intChars, if_neg hn, List.nil_append, hdt] at hint
          simpa using hint
        split
        · rename_i r heq
          exfalso
          injection heq with h1 h2
          rw [h1] at hd
          exact absurd hd (by decide)
        · rename_i r heq
          exfalso
          injection heq with h1 h2
          rw [h1] at hd
          exact absurd hd (by decide)
        · rename_i r heq
          exfalso
          injection heq with h1 h2
          rw [h1] at hd
          exact absurd hd (by decide)
        · rename_i r heq
          exfalso
          injection heq with h1 h2
          rw [h1] at hd
          exact absurd hd (by decide)
        · rename_i r heq
          exfalso
          injection heq with h1 h2
          rw [h1] at hd
          exact absurd hd (by decide)
        · rename_i r heq
          exfalso
          injection heq with h1 h2
          rw [h1] at hd
          exact absurd hd (by decide)
        · rename_i c r heq
          injection heq with h1 h2
          subst h1
          subst h2
          rw [if_pos (by simp [hd])]
          rw [hpn]
          rfl
        · rename_i heq
          exact absurd heq (by simp)
  | strS s hcond =>
    intro f rest hsep h
    cases f with
    | zero => exact absurd h (Nat.not_lt_zero _)
    | succ g =>
      rw [parseF_pval]
      simp only [printVal, printStr, List.cons_append, List.append_assoc,
        List.nil_append]
      rw [skipWs_cons _ (by decide)]
      have hb := parseStrBody_esc s.data
          ((escBody s.data ++ ('"' :: rest)).length + 1) [] rest
          (by
            have := escBody_length s.data
            simp only [List.length_append, List.length_cons]
            omega)
      simp only [List.length_append, List.length_cons] at hb
      simp [hb, stringMk_data]
  | arrS l hmem ih =>
    intro f rest hsep h
    cases f with
    | zero => exact absurd h (Nat.not_lt_zero _)
    | succ g =>
      cases l with
      | nil => exact rfl
      | cons w t =>
        have hLa : (printVal (.jarr (w :: t))).length
            = (printElems (w :: t)).length + 2 := by
          simp [printVal, List.length_append]
        obtain ⟨c0, cs0, hpw, hw, hbr, hbc⟩ := printVal_head w (hmem w (by simp))
        rw [parseF_pval]
        simp only [printVal, List.cons_append, List.append_assoc, List.nil_append]
        rw [skipWs_cons _ (by decide)]
        have hrec := pp_elems_aux (w :: t)
          (fun x hx => ⟨printVal_pos x (hmem x hx),
            fun f2 r2 hs2 hf2 => ih x hx f2 r2 hs2 hf2⟩)
          g rest (by omega) (by simp)
        simp only [printElems_cons, hpw, List.cons_append, List.append_assoc] at hrec
        simp only [printElems_cons, hpw, List.cons_append, List.append_assoc]
        rw [skipWs_cons _ hw]
        split
        · rename_i r2 heq
          exfalso
          injection heq with h1 h2
          exact absurd h1 hbr
        · rw [hrec]
  | objS fl hkeys hmem ih =>
    intro f rest hsep h
    cases f with
    | zero => exact absurd h (Nat.not_lt_zero _)
    | succ g =>
      cases fl with
      | nil => exact rfl
      | cons kv t =>
        obtain ⟨k, v⟩ := kv
        have hLo : (printVal (.jobj ((k, v) :: t))).length
            = (printFields ((k, v) :: t)).length + 2 := by
          simp [printVal, List.length_append]
        rw [parseF_pval]
        simp only [printVal, List.cons_append, List.append_assoc, List.nil_append]
        rw [skipWs_cons _ (by decide)]
        have hrec := pp_fields_aux ((k, v) :: t)
          (fun x hx => ⟨printVal_pos x.2 (hmem x hx),
            fun f2 r2 hs2 hf2 => ih x hx f2 r2 hs2 hf2⟩)
          g rest (by omega) (by simp)
        simp only [printFields_cons, printStr, List.cons_append, List.append_assoc,
          List.nil_append] at hrec
        simp only [printFields_cons, printStr, List.cons_append, List.append_assoc,
          List.nil_append]
        rw [skipWs_cons _ (by decide)]
        simp [hrec]

theorem jsonParse_print (v : JSVal) (hs : Supported v) :
    jsonParse (stringifyVal v) = some v := by
  rw [jsonParse]
  have hdata : (stringifyVal v).data = printVal v := rfl
  rw [hdata]
  have h := pp_val hs (2 * (printVal v).length + 2) [] (Or.inl rfl) (by omega)
  rw [List.append_nil] at h
  rw [h]
  rfl

theorem digitGuard_print_false (v : JSVal) (hs : Supported v) (ht : topDecodable v) :
    digitGuard (stringifyVal v) = false := by
  have hhead := printVal_head v hs
  obtain ⟨c, cs, he, hw, -, -⟩ := hhead
  have hnd : isDigitC c = false := by
    cases v with
    | jnum n => exact absurd ht (by simp [topDecodable])
    | jfrac raw => exact absurd ht (by simp [topDecodable])
    | jnull =>
      have : c = 'n' := by
        have : printVal .jnull = 'n' :: ['u', 'l', 'l'] := rfl
        rw [this] at he
        exact (List.head_eq_of_cons_eq he.symm)
      rw [this]
      decide
    | jbool b =>
      cases b with
      | true =>
        have hc : c = 't' := by
          have hpv : printVal (.jbool true) = 't' :: ['r', 'u', 'e'] := rfl
          rw [hpv] at he
          exact (List.head_eq_of_cons_eq he.symm)
        rw [hc]
        decide
      | false =>
        have hc : c = 'f' := by
          have hpv : printVal (.jbool false) = 'f' :: ['a', 'l', 's', 'e'] := rfl
          rw [hpv] at he
          exact (List.head_eq_of_cons_eq he.symm)
        rw [hc]
        decide
    | jstr s =>
      have hc : c = '"' := by
        have hpv : printVal (.jstr s) = '"' :: (escBody s.data ++ ['"']) := rfl
        rw [hpv] at he
        exact (List.head_eq_of_cons_eq he.symm)
      rw [hc]
      decide
    | jarr l =>
      have hc : c = '[' := by
        have hpv : printVal (.jarr l) = '[' :: (printElems l ++ [']']) := rfl
        rw [hpv] at he
        exact (List.head_eq_of_cons_eq he.symm)
      rw [hc]
      decide
    | jobj fl =>
      have hc : c = '\x7b' := by
        have hpv : printVal (.jobj fl) = '\x7b' :: (printFields fl ++ ['\x7d']) := rfl
        rw [hpv] at he
        exact (List.head_eq_of_cons_eq he.symm)
      rw [hc]
      decide
  rw [digitGuard]
  have hdata : (stringifyVal v).data = printVal v := rfl
  rw [jsDigitsOnly, hdata, he]
  simp [hnd]

theorem rpjGo_fix_elems (l : List JSVal)
    (hel : ∀ v ∈ l, 1 ≤ (printVal v).length
      ∧ ∀ g, (printVal v).length < g → rpjGo g (.argV v) = some (.outV v)) :
    ∀ g, (printElems l).length + 1 < g → rpjGo g (.argL l) = some (.outL l) := by
  induction l with
  | nil =>
    intro g h
    cases g with
    | zero => exact absurd h (Nat.not_lt_zero _)
    | succ g2 => rfl
  | cons v t ih =>
    intro g h
    obtain ⟨hv1, hv2⟩ := hel v (by simp)
    cases g with
    | zero => exact absurd h (Nat.not_lt_zero _)
    | succ g2 =>
      have hlen := h
      simp only [printElems_cons, List.length_append, List.length_cons] at hlen
      rw [rpjGo]
      rw [hv2 g2 (by omega)]
      cases t with
      | nil =>
        cases g2 with
        | zero => omega
        | succ g3 =>
          rw [show rpjGo (g3 + 1) (.argL ([] : List JSVal))
              = some (.outL []) from rfl]
      | cons w t2 =>
        have hlt2 := hlen
        simp only [printElemsTail_cons, List.length_append, List.length_cons] at hlt2
        have ht2 : (printElems (w :: t2)).length
            = (printVal w).length + (printElemsTail t2).length := by
          rw [printElems_cons, List.length_append]
        rw [ih (fun x hx => hel x (by simp [hx])) g2 (by omega)]

theorem rpjGo_fix_fields (fl : List (String × JSVal))
    (hkeys : ∀ kv ∈ fl, normKey kv.1 = kv.1)
    (hel : ∀ kv ∈ fl, 1 ≤ (printVal kv.2).length
      ∧ ∀ g, (printVal kv.2).length < g → rpjGo g (.argV kv.2) = some (.outV kv.2)) :
    ∀ g, (printFields fl).length + 1 < g → rpjGo g (.argF fl) = some (.outF fl) := by
  induction fl with
  | nil =>
    intro g h
    cases g with
    | zero => exact absurd h (Nat.not_lt_zero _)
    | succ g2 => rfl
  | cons kv t ih =>
    obtain ⟨k, v⟩ := kv
    intro g h
    obtain ⟨hv1, hv2⟩ := hel (k, v) (by simp)
    dsimp only at hv1 hv2
    cases g with
    | zero => exact absurd h (Nat.not_lt_zero _)
    | succ g2 =>
      have hlen := h
      simp only [printFields_cons, printStr_len, List.length_append,
        List.length_cons] at hlen
      rw [rpjGo]
      rw [hv2 g2 (by omega)]
      have hk : normKey k = k := hkeys (k, v) (by simp)
      cases t with
      | nil =>
        cases g2 with
        | zero => omega
        | succ g3 =>
          rw [show rpjGo (g3 + 1) (.argF ([] : List (String × JSVal)))
              = some (.outF []) from rfl]
          simp [hk]
      | cons kv2 t2 =>
        obtain ⟨k2, v2⟩ := kv2
        have hlt2 := hlen
        simp only [printFieldsTail_cons, printStr_len, List.length_append,
          List.length_cons] at hlt2
        have ht2 : (printFields ((k2, v2) :: t2)).length
            = (printStr k2).length + 1
              + ((printVal v2).length + (printFieldsTail t2).length) := by
          simp [printFields_cons, List.length_append]
          omega
        rw [ih (fun x hx => hkeys x (by simp [hx]))
            (fun x hx => hel x (by simp [hx])) g2
            (by rw [ht2]; simp only [printStr_len] at *; omega)]
        simp [hk]

theorem rpjGo_fix (v : JSVal) (hs : Supported v) :
    ∀ g, (printVal v).length < g → rpjGo g (.argV v) = some (.outV v) := by
  induction hs with
  | nullS =>
    intro g h
    cases g with
    | zero => exact absurd h (Nat.not_lt_zero _)
    | succ g2 => rfl
  | boolS b =>
    intro g h
    cases g with
    | zero => exact absurd h (Nat.not_lt_zero _)
    | succ g2 => rfl
  | numS n h15 =>
    intro g h
    cases g with
    | zero => exact absurd h (Nat.not_lt_zero _)
    | succ g2 => rfl
  | strS s hcond =>
    intro g h
    cases g with
    | zero => exact absurd h (Nat.not_lt_zero _)
    | succ g2 =>
      rw [rpjGo]
      by_cases hg : digitGuard s
      · rw [if_pos hg]
      · rw [if_neg hg]
        rw [Bool.or_eq_true] at hcond
        rcases hcond with hc | hc
        · exact absurd hc hg
        · rw [Option.isNone_iff_eq_none] at hc
          rw [hc]
  | arrS l hmem ih =>
    intro g h
    cases g with
    | zero => exact absurd h (Nat.not_lt_zero _)
    | succ g2 =>
      have hLa : (printVal (.jarr l)).length = (printElems l).length + 2 := by
        simp [printVal, List.length_append]
      rw [rpjGo]
      rw [rpjGo_fix_elems l
          (fun x hx => ⟨printVal_pos x (hmem x hx), fun g3 h3 => ih x hx g3 h3⟩)
          g2 (by omega)]
  | objS fl hkeys hmem ih =>
    intro g h
    cases g with
    | zero => exact absurd h (Nat.not_lt_zero _)
    | succ g2 =>
      have hLo : (printVal (.jobj fl)).length = (printFields fl).length + 2 := by
        simp [printVal, List.length_append]
      rw [rpjGo]
      rw [rpjGo_fix_fields fl (fun kv hkv => normKey_of_safeKey (hkeys kv hkv))
          (fun x hx => ⟨printVal_pos x.2 (hmem x hx), fun g3 h3 => ih x hx g3 h3⟩)
          g2 (by omega)]

/-- Claim C2: a string of ASCII digits whose value is at most 2^64 - 1 is
returned by the decoder unmodified, as a string. -/
theorem c2_digit_string_preserved (s : String) (f : Nat) (hf : 0 < f)
    (hd : jsDigitsOnly s = true) (hle : digitsToNat 0 s.data ≤ U64MAX) :
    decodeText f s = some (.jstr s) := by
  cases f with
  | zero => omega
  | succ f =>
    have hg : digitGuard s = true := by simp [digitGuard, hd, hle]
    simp [decodeText, recursiveParseJSON, rpjGo, hg]

/-- Claim C2 witness at the largest 64-bit value. -/
theorem c2_witness :
    0 < 1 ∧ jsDigitsOnly "18446744073709551615" = true
  ∧ digitsToNat 0 "18446744073709551615".data ≤ U64MAX
  ∧ decodeText 1 "18446744073709551615" = some (.jstr "18446744073709551615") :=
  ⟨by decide, by decide, by decide,
   c2_digit_string_preserved "18446744073709551615" 1 (by decide) (by decide) (by decide)⟩

/-- Claim C3: a bulk list of exactly two values with differing schema tags
builds successfully — the size check runs before the insertion, so the
error can only fire from a third tagged element on.  The envelope keeps
the first tag and silently drops the second. -/
theorem c3_two_schema_tags_accepted :
    processBulkValues
      [.vobj [("schema", .plain (.jstr "A")), ("x", .plain (.jnum 1))],
       .vobj [("schema", .plain (.jstr "B")), ("x", .plain (.jnum 2))]]
    = .ok ([.vobj [("x", .plain (.jnum 1))], .vobj [("x", .plain (.jnum 2))]],
           some (.plain (.jstr "A"))) := rfl

/-- Claim C7 counterexample: processValue hands back the caller's value
object with the schema field deleted and the Timestamp field overwritten,
and an array argument (instanceof Object, its indices walked) with its
Timestamp element overwritten; neither input is left unchanged. -/
theorem c7_counterexample :
    processValue (.vobj [("schema", .plain (.jstr "S")), ("t", .tsv "2020-01-01")])
      = .ok (.vobj [("t", .plain (.jstr "2020-01-01"))], some (.plain (.jstr "S")))
  ∧ Value.vobj [("t", .plain (.jstr "2020-01-01"))]
      ≠ Value.vobj [("schema", .plain (.jstr "S")), ("t", .tsv "2020-01-01")]
  ∧ processValue (.varr [.tsv "2020-01-01"])
      = .ok (.varr [.plain (.jstr "2020-01-01")], none)
  ∧ Value.varr [.plain (.jstr "2020-01-01")] ≠ Value.varr [.tsv "2020-01-01"] := by
  refine ⟨rfl, fun h => ?_, rfl, fun h => ?_⟩
  · injection h with h2
    exact absurd (congrArg List.length h2) (by decide)
  · injection h with h2
    injection h2 with h3 h4
    exact FieldVal.noConfusion h3

/-- Claim C7 (amended): primitives pass through unchanged, but objects and
arrays — both instanceof Object — are handed back mutated: an object's
schema field is deleted and each direct Timestamp field overwritten with
its timestamp string, and an array's direct Timestamp elements are
likewise overwritten in place, with no schema found. -/
theorem c7_builder_mutation :
    (∀ j : JSVal, processValue (.vprim j) = .ok (.vprim j, none))
  ∧ (∀ (items : List FieldVal) (res : Value × Option FieldVal),
      processValue (.varr items) = .ok res →
      res.2 = none
      ∧ ∃ post, res.1 = Value.varr post
        ∧ (∀ (i : Nat) (t : String), items[i]? = some (.tsv t) →
            post[i]? = some (.plain (.jstr t))))
  ∧ (∀ (fields : List (String × FieldVal)) (res : Value × Option FieldVal),
      processValue (.vobj fields) = .ok res →
      res.2 = fields.lookup "schema"
      ∧ ∃ post, res.1 = Value.vobj post
        ∧ post.lookup "schema" = none
        ∧ (∀ (k t : String), k ≠ "schema" → fields.lookup k = some (.tsv t) →
            post.lookup k = some (.plain (.jstr t)))) := by
  refine ⟨fun j => rfl, fun items res h => ?_, fun fields res h => ?_⟩
  · rw [show processValue (.varr items)
        = (items.mapM resolveField).map (fun resolved => (.varr resolved, none))
        from rfl] at h
    cases hm : items.mapM resolveField with
    | error e => rw [hm] at h; simp [Except.map] at h
    | ok post =>
      rw [hm] at h
      simp only [Except.map, Except.ok.injEq] at h
      subst h
      refine ⟨rfl, post, rfl, ?_⟩
      intro i t hi
      obtain ⟨b, hb1, hb2⟩ := mapM_get_ok hm i (.tsv t) hi
      rw [show resolveField (.tsv t) = .ok (.plain (.jstr t)) from rfl] at hb1
      cases hb1
      exact hb2
  rw [processValue_vobj] at h
  cases hs : fields.lookup "schema" with
  | some fv =>
    rw [hs] at h
    cases hm : (fields.filter (fun (kv : String × FieldVal) => kv.1 ≠ "schema")).mapM
        (fun (kv : String × FieldVal) => (resolveField kv.2).map (fun fv => (kv.1, fv))) with
    | error e => rw [hm] at h; simp [Except.map] at h
    | ok post =>
      rw [hm] at h
      simp only [Except.map, Except.ok.injEq] at h
      subst h
      refine ⟨rfl, post, rfl, ?_, ?_⟩
      · exact (mres_lookup _ _ hm "schema").1 (lookup_filter_self fields "schema")
      · intro k t hk hl
        obtain ⟨fv2, hr1, hr2⟩ := (mres_lookup _ _ hm k).2 (.tsv t)
          ((lookup_filter_other fields "schema" k hk).symm ▸ hl)
        rw [show resolveField (.tsv t) = .ok (.plain (.jstr t)) from rfl] at hr1
        cases hr1
        exact hr2
  | none =>
    rw [hs] at h
    cases hm : fields.mapM
        (fun (kv : String × FieldVal) => (resolveField kv.2).map (fun fv => (kv.1, fv))) with
    | error e => rw [hm] at h; simp [Except.map] at h
    | ok post =>
      rw [hm] at h
      simp only [Except.map, Except.ok.injEq] at h
      subst h
      refine ⟨rfl, post, rfl, ?_, ?_⟩
      · exact (mres_lookup _ _ hm "schema").1 hs
      · intro k t hk hl
        obtain ⟨fv2, hr1, hr2⟩ := (mres_lookup _ _ hm k).2 (.tsv t) hl
        rw [show resolveField (.tsv t) = .ok (.plain (.jstr t)) from rfl] at hr1
        cases hr1
        exact hr2

/-- Claim C10 counterexample: the decoder is not total — on the all-digit
numeral 2^64 (which the digit guard rejects and json-bigint's
storeAsString hands back as the same string) the recursion never
completes, at any call depth. -/
theorem c10_counterexample : rpjDivergesOn (.jstr "18446744073709551616") := by
  intro f
  induction f with
  | zero => rfl
  | succ f ih =>
    have hg : digitGuard "18446744073709551616" = false := by decide
    have hp : jsonParse "18446744073709551616" = some (.jstr "18446744073709551616") := rfl
    rw [recursiveParseJSON] at ih ⊢
    rw [rpjGo, if_neg (by simp [hg]), hp]
    exact ih

/-- Claim C10 (amended): on every value whose string leaves the decoder
disposes of at one level — digit-guarded or non-parsable — the recursion
completes and returns a value. -/
theorem c10_decoder_completes (v : JSVal) (h : LeavesOk v) :
    ∃ f, (recursiveParseJSON f v).isSome = true := by
  obtain ⟨f, r, hr⟩ := rpjGo_total h
  exact ⟨f, by rw [recursiveParseJSON, hr]; rfl⟩

/-- Claim C10 witness: a concrete object with a digit-string leaf and a
non-parsable string leaf decodes to a value. -/
theorem c10_witness :
    ∃ f, (recursiveParseJSON f (.jobj [("a", .jstr "123"), ("b", .jstr "hello")])).isSome = true :=
  c10_decoder_completes _ (.objL _ (by
    intro kv hkv
    rcases List.mem_cons.mp hkv with rfl | h2
    · exact .strL _ (by decide)
    · rcases List.mem_cons.mp h2 with rfl | h3
      · exact .strL _ (by decide)
      · cases h3))

/-- Claim C5 (amended): at end-of-stream with the call unresolved, the
transport resolves recursiveParseJSON of the buffered remainder; when that
remainder is incomplete or invalid wire text the decoder returns the raw
buffered string itself, so the call resolves the raw fragment (the
"Incomplete or invalid response" branch is dead, the decoder never
throwing on a string). -/
theorem c5_eos_resolves_raw_fragment (msg : String) (cb : Bool) (f : Nat) (s : ConnState)
    (hsub : jsIncludes msg "subscribe" = false) (hres : s.resolved = none)
    (hparse : jsonParse ⟨s.buffer⟩ = none) :
    stepEv msg cb (f + 1) s .eos
      = some { s with resolved := some (.value (.jstr ⟨s.buffer⟩)) } := by
  rw [stepEv, if_neg (by simp [hsub]), decode_raw _ _ hparse]
  simp [resolveOnce, hres]

/-- Claim C5 witness for the amended statement, at a concrete unresolved
state buffering an incomplete object fragment. -/
theorem c5_witness :
    jsIncludes "m" "subscribe" = false
  ∧ jsonParse "\x7b\"a\":" = none
  ∧ stepEv "m" false 2 ⟨"\x7b\"a\":".data, false, none, [], false, []⟩ .eos
      = some ⟨"\x7b\"a\":".data, false, some (.value (.jstr "\x7b\"a\":")), [], false, []⟩ :=
  ⟨rfl, rfl, c5_eos_resolves_raw_fragment "m" false 1 _ rfl rfl rfl⟩

/-- Claim C5 counterexample: a one-shot call whose socket ends while an
incomplete fragment is buffered resolves that raw protocol fragment, not
the "Incomplete or invalid response" indicator the claim expects. -/
theorem c5_counterexample :
    (runEvents "m" false 2 [.connect, .data "\x7b\"a\":1", .eos] initConn).map
        (fun s => s.resolved)
      = some (some (.value (.jstr "\x7b\"a\":1")))
  ∧ (some (some (Resolution.value (.jstr "\x7b\"a\":1"))) : Option (Option Resolution))
      ≠ some (some (.failure "Incomplete or invalid response")) := by
  refine ⟨rfl, fun h => ?_⟩
  injection h with h1
  injection h1 with h2
  exact Resolution.noConfusion h2

/-- Claim C6: getValue, getBulk and lookupValuesWhere each reject the
combination with_pointers = pointers_metadata = true synchronously, before
any envelope is built or sent; and any envelope they do hand to the wire
has at most one of the two flags set. -/
theorem c6_pointer_flags_exclusive (cls : Ctx) (a : GetValueArgs) (b : GetBulkArgs)
    (c : LookupValuesArgs) :
    (a.pointersMetadata = true → a.withPointers = true →
      getValueE cls a = .error bothPointersMsg)
  ∧ (b.pointersMetadata = true → b.withPointers = true →
      getBulkE cls b = .error bothPointersMsg)
  ∧ (c.pointersMetadata = true → c.withPointers = true →
      lookupValuesWhereE cls c = .error bothPointersMsg)
  ∧ (∀ e, getValueE cls a = .ok e → (e.with_pointers && e.pointers_metadata) = false)
  ∧ (∀ e, getBulkE cls b = .ok e → (e.with_pointers && e.pointers_metadata) = false)
  ∧ (∀ e, lookupValuesWhereE cls c = .ok e → (e.with_pointers && e.pointers_metadata) = false) := by
  refine ⟨fun h1 h2 => ?_, fun h1 h2 => ?_, fun h1 h2 => ?_, fun e h => ?_, fun e h => ?_,
    fun e h => ?_⟩
  · rw [getValueE, if_pos (by rw [h1, h2]; rfl)]
  · rw [getBulkE, if_pos (by rw [h1, h2]; rfl)]
  · rw [lookupValuesWhereE, if_pos (by rw [h1, h2]; rfl)]
  · rw [getValueE] at h
    by_cases hflags : a.pointersMetadata && a.withPointers
    · rw [if_pos hflags] at h
      exact absurd h (by simp)
    · rw [if_neg hflags] at h
      split at h
      · exact absurd h (by simp)
      · obtain ⟨hw, hp⟩ := buildEnvelope_flags _ _ _ h
        rw [hw, hp]
        simpa [Bool.and_comm] using hflags
  · rw [getBulkE] at h
    by_cases hflags : b.pointersMetadata && b.withPointers
    · rw [if_pos hflags] at h
      exact absurd h (by simp)
    · rw [if_neg hflags] at h
      split at h
      · exact absurd h (by simp)
      · obtain ⟨hw, hp⟩ := buildEnvelope_flags _ _ _ h
        rw [hw, hp]
        simpa [Bool.and_comm] using hflags
  · rw [lookupValuesWhereE] at h
    by_cases hflags : c.pointersMetadata && c.withPointers
    · rw [if_pos hflags] at h
      exact absurd h (by simp)
    · rw [if_neg hflags] at h
      obtain ⟨hw, hp⟩ := buildEnvelope_flags _ _ _ h
      rw [hw, hp]
      simpa [Bool.and_comm] using hflags

/-- Claim C6 witness, with both flags set on each front method. -/
theorem c6_witness :
    getValueE ⟨"u", "p", none, "st", "ks", false, false, ""⟩ ⟨"k", none, true, false, true⟩
      = .error bothPointersMsg
  ∧ getBulkE ⟨"u", "p", none, "st", "ks", false, false, ""⟩
      ⟨["k"], [], (0, 0), true, false, true, [], false⟩ = .error bothPointersMsg
  ∧ lookupValuesWhereE ⟨"u", "p", none, "st", "ks", false, false, ""⟩
      ⟨[], (0, 0), true, none, false, true⟩ = .error bothPointersMsg := by
  obtain ⟨h1, h2, h3, _, _, _⟩ := c6_pointer_flags_exclusive
    ⟨"u", "p", none, "st", "ks", false, false, ""⟩ ⟨"k", none, true, false, true⟩
    ⟨["k"], [], (0, 0), true, false, true, [], false⟩ ⟨[], (0, 0), true, none, false, true⟩
  exact ⟨h1 rfl rfl, h2 rfl rfl, h3 rfl rfl⟩

theorem run_data_frames (msg : String) (fuel : Nat) (hsub : jsIncludes msg "subscribe" = true) :
    ∀ (frames : List String) (ds : List JSVal), frames.length = ds.length →
    (∀ p ∈ frames.zip ds, goodFrame fuel p.1 p.2) →
    ∀ s : ConnState, s.buffer = [] →
    runEvents msg true fuel (frames.map (fun fr => .data (fr ++ "\n"))) s
      = some { s with delivered := s.delivered ++ (if s.stopped then [] else ds) } := by
  intro frames
  induction frames with
  | nil =>
    intro ds hlen hgood s hb
    cases ds with
    | nil =>
      obtain ⟨buf, st, res, del, dest, wr⟩ := s
      cases st <;> simp [runEvents, List.foldlM]
    | cons d dt => simp at hlen
  | cons fr frt ih =>
    intro ds hlen hgood s hb
    cases ds with
    | nil => simp at hlen
    | cons d dt =>
      obtain ⟨hnl, hblank, hdec⟩ := hgood (fr, d) (by simp)
      have hstep := step_data_frame msg true fuel s fr d hb hnl hblank hdec
      rw [if_pos hsub] at hstep
      rw [List.map_cons, runEvents, List.foldlM_cons, hstep]
      have hgt : ∀ p ∈ frt.zip dt, goodFrame fuel p.1 p.2 := by
        intro p hp
        exact hgood p (by simp [hp])
      obtain ⟨buf, st, res, del, dest, wr⟩ := s
      simp only at hb
      subst hb
      cases st with
      | true =>
        rw [if_neg (by simp)]
        have := ih dt (by simpa using hlen) hgt ⟨[], true, res, del, dest, wr⟩ rfl
        rw [runEvents] at this
        simpa using this
      | false =>
        rw [if_pos (by simp)]
        have := ih dt (by simpa using hlen) hgt ⟨[], false, res, del ++ [d], dest, wr⟩ rfl
        rw [runEvents] at this
        simpa using this

/-- Claim C8: over one subscription connection, every complete
newline-delimited frame arriving before stop() is delivered through the
callback exactly once, in arrival order, frames arriving after stop()
deliver nothing, and stop() is idempotent. -/
theorem c8_subscription_delivery (msg : String) (fuel : Nat)
    (hsub : jsIncludes msg "subscribe" = true)
    (frames post : List String) (ds dpost : List JSVal)
    (hlen : frames.length = ds.length) (hlen2 : post.length = dpost.length)
    (hgood : ∀ p ∈ frames.zip ds, goodFrame fuel p.1 p.2)
    (hgood2 : ∀ p ∈ post.zip dpost, goodFrame fuel p.1 p.2) :
    ((runEvents msg true fuel
        (.connect :: (frames.map (fun fr => .data (fr ++ "\n")) ++ [.stop]
          ++ post.map (fun fr => .data (fr ++ "\n")))) initConn).map
      (fun s => (s.delivered, s.stopped))
      = some (ds, true))
  ∧ (∀ s : ConnState, runEvents msg true fuel [.stop, .stop] s
      = runEvents msg true fuel [.stop] s) := by
  constructor
  · have hconn : stepEv msg true fuel initConn .connect
        = some ⟨[], false, some .handle, [], false, [msg ++ "\n"]⟩ := by
      rw [stepEv]
      simp [hsub, resolveOnce, initConn]
    have h1 : runEvents msg true fuel (frames.map (fun fr => .data (fr ++ "\n")))
        ⟨[], false, some .handle, [], false, [msg ++ "\n"]⟩
        = some ⟨[], false, some .handle, ds, false, [msg ++ "\n"]⟩ := by
      simpa using run_data_frames msg fuel hsub frames ds hlen hgood
        ⟨[], false, some .handle, [], false, [msg ++ "\n"]⟩ rfl
    have hstop : stepEv msg true fuel ⟨[], false, some .handle, ds, false, [msg ++ "\n"]⟩ .stop
        = some ⟨[], true, some .handle, ds, true, [msg ++ "\n"]⟩ := by
      rw [stepEv]
    have h2 : runEvents msg true fuel (post.map (fun fr => .data (fr ++ "\n")))
        ⟨[], true, some .handle, ds, true, [msg ++ "\n"]⟩
        = some ⟨[], true, some .handle, ds, true, [msg ++ "\n"]⟩ := by
      simpa using run_data_frames msg fuel hsub post dpost hlen2 hgood2
        ⟨[], true, some .handle, ds, true, [msg ++ "\n"]⟩ rfl
    rw [runEvents] at h1 h2
    rw [runEvents, List.foldlM_cons, hconn]
    simp only [Bind.bind, Option.bind, List.foldlM_append, List.foldlM_cons, List.foldlM_nil,
      h1, hstop, h2]
    rfl
  · intro s
    simp [runEvents, List.foldlM, stepEv]

/-- Claim C8 witness: three frames before stop() deliver exactly three
messages in order; a fourth frame after stop() delivers nothing. -/
theorem c8_witness :
    (runEvents "subscribe_x" true 1
        (.connect :: (["1", "2", "3"].map (fun fr => .data (fr ++ "\n")) ++ [.stop]
          ++ ["4"].map (fun fr => .data (fr ++ "\n")))) initConn).map
      (fun s => (s.delivered, s.stopped))
      = some ([.jstr "1", .jstr "2", .jstr "3"], true) :=
  (c8_subscription_delivery "subscribe_x" 1 rfl ["1", "2", "3"] ["4"]
    [.jstr "1", .jstr "2", .jstr "3"] [.jstr "4"] rfl rfl
    (by
      intro p hp
      rcases List.mem_cons.mp hp with rfl | hp2
      · exact ⟨rfl, rfl, rfl⟩
      rcases List.mem_cons.mp hp2 with rfl | hp3
      · exact ⟨rfl, rfl, rfl⟩
      rcases List.mem_cons.mp hp3 with rfl | hp4
      · exact ⟨rfl, rfl, rfl⟩
      cases hp4)
    (by
      intro p hp
      rcases List.mem_cons.mp hp with rfl | hp2
      · exact ⟨rfl, rfl, rfl⟩
      cases hp2)).1

/-- Claim C4 (amended): the transport enters the subscription path exactly
when the serialized message contains "subscribe" anywhere — connecting
resolves the handle in that case and otherwise leaves the call pending
until the first complete frame resolves it (one-shot path, socket
destroyed). -/
theorem c4_subscription_detection (msg : String) (cb : Bool) (fuel : Nat) :
    ((runEvents msg cb fuel [.connect] initConn).map (fun s => s.resolved)
      = some (if jsIncludes msg "subscribe" then some Resolution.handle else none))
  ∧ (jsIncludes msg "subscribe" = false →
      ∀ (line : String) (d : JSVal), line.data.contains '\n' = false →
        (trimChars line.data).isEmpty = false → decodeText fuel line = some d →
        (runEvents msg cb fuel [.connect, .data (line ++ "\n")] initConn).map
            (fun s => (s.resolved, s.destroyed)) = some (some (.value d), true)) := by
  constructor
  · by_cases hsub : jsIncludes msg "subscribe"
      <;> simp [runEvents, List.foldlM, stepEv, resolveOnce, initConn, hsub]
  · intro hsub line d hnl hblank hdec
    have hconn : stepEv msg cb fuel initConn .connect
        = some ⟨[], false, none, [], false, [msg ++ "\n"]⟩ := by
      rw [stepEv]
      simp [hsub, initConn]
    have hstep := step_data_frame msg cb fuel
        ⟨[], false, none, [], false, [msg ++ "\n"]⟩ line d rfl hnl hblank hdec
    rw [if_neg (by simp [hsub])] at hstep
    rw [runEvents, List.foldlM_cons, hconn]
    show (List.foldlM (stepEv msg cb fuel) _ _).map _ = _
    rw [List.foldlM_cons, hstep]
    simp [resolveOnce]

/-- Claim C4 witness: a message containing "subscribe" yields the handle on
connecting; one without it resolves the first decoded frame. -/
theorem c4_witness :
    ((runEvents "a_subscribe" false 1 [.connect] initConn).map (fun s => s.resolved)
      = some (some .handle))
  ∧ ((runEvents "x" false 1 [.connect, .data ("1" ++ "\n")] initConn).map
        (fun s => (s.resolved, s.destroyed)) = some (some (.value (.jstr "1")), true)) := by
  constructor
  · have h1 := (c4_subscription_detection "a_subscribe" false 1).1
    rw [if_pos (by decide)] at h1
    exact h1
  · exact (c4_subscription_detection "x" false 1).2 rfl "1" (.jstr "1") rfl rfl rfl

/-- Claim C4 counterexample: an envelope whose command is get_value but
whose key contains "subscribe" serialises to a message the transport takes
down the subscription path, returning a handle although the command name
lacks the substring. -/
theorem c4_counterexample :
    jsIncludes "get_value" "subscribe" = false
  ∧ ((convertToBinaryQuery ⟨"u", "p", none, "st", "ks", false, false, "get_value"⟩
        { defaultOptions with key := some "subscribe1" }).map (fun m =>
          (jsIncludes m "subscribe",
           (runEvents m false 1 [.connect] initConn).map (fun s => s.resolved))))
      = .ok (true, some (some .handle)) :=
  ⟨rfl, rfl⟩



theorem pbkv_out_spec (m : List (String × Value)) :
    ∀ (acc r : BulkProcessed),
      m.foldlM
        (fun (acc : BulkProcessed) (kv : String × Value) =>
          if isObjectVal kv.2 then
            (bulkEntryPost kv.2).bind (fun post =>
              pure ⟨acc.post ++ [(kv.1, post)], acc.out ++ [(procBulkKey kv.1, stringifyValue post)]⟩)
          else
            pure ⟨acc.post ++ [(kv.1, kv.2)], acc.out⟩)
        acc = .ok r →
      r.out = acc.out ++ m.filterMap (fun (kv : String × Value) =>
        if isObjectVal kv.2 then
          (bulkEntryPost kv.2).toOption.map
            (fun post => (procBulkKey kv.1, stringifyValue post))
        else none) := by
  induction m with
  | nil =>
    intro acc r h
    simp only [List.foldlM_nil, pure, Except.pure, Except.ok.injEq] at h
    subst h
    simp
  | cons kv t ih =>
    intro acc r h
    rw [List.foldlM_cons] at h
    by_cases hobj : isObjectVal kv.2
    · rw [if_pos hobj] at h
      cases hbp : bulkEntryPost kv.2 with
      | error e =>
        rw [hbp] at h
        simp [Except.bind, Bind.bind] at h
      | ok post =>
        rw [hbp] at h
        simp only [Except.bind, Bind.bind, pure, Except.pure] at h
        have := ih _ _ h
        simp only [this, List.filterMap_cons, if_pos hobj, hbp, Except.toOption,
          Option.map_some]
        simp
    · rw [if_neg hobj] at h
      simp only [Bind.bind, Except.bind, pure, Except.pure] at h
      have := ih _ _ h
      simp only [this, List.filterMap_cons, if_neg hobj]

/-- Claim C9: for every bulk key/value map, the envelope's
bulk_keys_values object holds exactly the Object-valued entries, in
order — each serialised independently from its post-edit form under the
routed key (numeric-looking keys kept, others hashed) — and every entry
whose value is a primitive (string, number, boolean, null) is silently
omitted. -/
theorem c9_bulk_map_entries (m : List (String × Value)) (r : BulkProcessed)
    (h : processBulkKeysValues m = .ok r) :
    r.out = m.filterMap (fun (kv : String × Value) =>
      if isObjectVal kv.2 then
        (bulkEntryPost kv.2).toOption.map
          (fun post => (procBulkKey kv.1, stringifyValue post))
      else none) := by
  have := pbkv_out_spec m ⟨[], []⟩ r h
  simpa using this

/-- Claim C9 witness: a concrete map with an object entry under a numeric
key, an object entry under a custom key (hashed to "3698808529"), and
string/number/boolean entries that vanish from the output. -/
theorem c9_witness :
    processBulkKeysValues
      [("1", .vobj [("a", .plain (.jnum 1))]),
       ("w", .vobj [("t", .tsv "now")]),
       ("s", .vprim (.jstr "plain")),
       ("n", .vprim (.jnum 7)),
       ("b", .vprim (.jbool true))]
      = .ok ⟨[("1", .vobj [("a", .plain (.jnum 1))]),
              ("w", .vobj [("t", .plain (.jstr "now"))]),
              ("s", .vprim (.jstr "plain")),
              ("n", .vprim (.jnum 7)),
              ("b", .vprim (.jbool true))],
             [("1", "\x7b\"a\":1\x7d"), ("3698808529", "\x7b\"t\":\"now\"\x7d")]⟩
  ∧ [("1", "\x7b\"a\":1\x7d"), ("3698808529", "\x7b\"t\":\"now\"\x7d")]
      = ([("1", Value.vobj [("a", .plain (.jnum 1))]),
          ("w", .vobj [("t", .tsv "now")]),
          ("s", .vprim (.jstr "plain")),
          ("n", .vprim (.jnum 7)),
          ("b", .vprim (.jbool true))].filterMap (fun (kv : String × Value) =>
        if isObjectVal kv.2 then
          (bulkEntryPost kv.2).toOption.map
            (fun post => (procBulkKey kv.1, stringifyValue post))
        else none)) := by
  refine ⟨rfl, ?_⟩
  have h := c9_bulk_map_entries
    [("1", .vobj [("a", .plain (.jnum 1))]),
     ("w", .vobj [("t", .tsv "now")]),
     ("s", .vprim (.jstr "plain")),
     ("n", .vprim (.jnum 7)),
     ("b", .vprim (.jbool true))]
    ⟨[("1", .vobj [("a", .plain (.jnum 1))]),
      ("w", .vobj [("t", .plain (.jstr "now"))]),
      ("s", .vprim (.jstr "plain")),
      ("n", .vprim (.jnum 7)),
      ("b", .vprim (.jbool true))],
     [("1", "\x7b\"a\":1\x7d"), ("3698808529", "\x7b\"t\":\"now\"\x7d")]⟩
    rfl
  exact h

/-- Claim C1 (amended): the round trip decode(encode(v)) = v holds for every
supported value whose top-level constructor the decoder does not renumber:
null, booleans, strings that either pass the digit guard or do not parse as
wire text, arrays and objects of such values, with embedded integers whose
decimal text fits json-bigint's 15-character number window and object keys
the parseInt normalisation provably fixes (no digit prefix, or canonical
decimals below 2^53, inside which parseInt's double result is exact).  A
bare numeral at top level is excluded: its printed text is all digits,
which the decoder's digit guard intercepts (see the counterexample). -/
theorem c1_roundtrip_supported (v : JSVal) (hs : Supported v) (ht : topDecodable v)
    (f : Nat) (hf : (printVal v).length + 1 < f) :
    decodeText f (stringifyVal v) = some v := by
  cases f with
  | zero => omega
  | succ g =>
    have hgo : rpjGo (g + 1) (.argV (.jstr (stringifyVal v))) = some (.outV v) := by
      rw [rpjGo, if_neg (by rw [digitGuard_print_false v hs ht]; simp),
          jsonParse_print v hs]
      exact rpjGo_fix v hs g (by omega)
    rw [decodeText, recursiveParseJSON, hgo]

/-- Claim C1 counterexample: the integer 5 encodes to the wire text "5",
which the decoder's digit guard returns as the string "5", not the number
5 — the round trip fails on bare integers, losing the numeric type. -/
theorem c1_counterexample :
    decodeText 2 (stringifyVal (.jnum 5)) = some (.jstr "5")
  ∧ JSVal.jstr "5" ≠ JSVal.jnum 5 :=
  ⟨rfl, fun h => JSVal.noConfusion h⟩

/-- Claim C1 witness: a concrete object with null, boolean, 64-bit decimal
string and small integer leaves round-trips through encode and decode. -/
theorem c1_witness :
    Supported (.jobj [("key", .jarr [.jnull, .jbool true,
        .jstr "18446744073709551615", .jnum 42])])
  ∧ topDecodable (.jobj [("key", .jarr [.jnull, .jbool true,
        .jstr "18446744073709551615", .jnum 42])])
  ∧ (printVal (.jobj [("key", .jarr [.jnull, .jbool true,
        .jstr "18446744073709551615", .jnum 42])])).length + 1 < 100
  ∧ decodeText 100 (stringifyVal (.jobj [("key", .jarr [.jnull, .jbool true,
        .jstr "18446744073709551615", .jnum 42])]))
      = some (.jobj [("key", .jarr [.jnull, .jbool true,
        .jstr "18446744073709551615", .jnum 42])]) := by
  have hs : Supported (.jobj [("key", .jarr [.jnull, .jbool true,
      .jstr "18446744073709551615", .jnum 42])]) := by
    refine .objS _ ?_ ?_
    · intro kv hkv
      simp only [List.mem_singleton] at hkv
      subst hkv
      decide
    · intro kv hkv
      simp only [List.mem_singleton] at hkv
      subst hkv
      refine .arrS _ ?_
      intro x hx
      simp only [List.mem_cons, List.not_mem_nil, or_false] at hx
      rcases hx with rfl | rfl | rfl | rfl
      · exact .nullS
      · exact .boolS true
      · exact .strS _ (by decide)
      · exact .numS 42 (by decide)
  exact ⟨hs, trivial, by decide, c1_roundtrip_supported _ hs trivial 100 (by decide)⟩

end Montycat
